import Mathlib

/-!
# Verification of the tabspace annotation-synchronization engine

Shallow embedding of the mark-reconciliation subsystem of the `tabspace`
repository (src/src/tasks/PriorityMark.ts, src/tasks/CustomTagMark.ts
[src/unnamed/part_001], and the Editor component [src/unnamed/part_003]),
together with proofs and refutations of the frozen specification claims.

Modelling conventions:
* Document text is a `List Char`.  A document is modelled as the inline
  content of one paragraph: a list of text nodes with marks, positioned
  contiguously starting at offset 0 (ProseMirror's `descendants` supplies
  each text node together with its absolute position `pos`; the constant
  block offsets do not affect any of the algorithms, which only ever
  compare positions produced by the same traversal).
* ProseMirror guarantees at most one mark of a given type per text node
  (a mark type excludes itself), so a node carries an `Option` mark of the
  managed type.
* `nanoid()` (a fresh random unique id) is modelled as a counter drawn
  from a `Nat` state: each call returns the current counter and bumps it.
* JavaScript regex scanning with the `g` flag is modelled by an explicit
  fuel-indexed scanner (`pScanJS`) that advances its cursor past each
  match exactly as `RegExp.exec` does; the fuel is the text length, which
  is sufficient because every loop iteration advances the cursor.
-/

/-- JS regex `\w` class: `[A-Za-z0-9_]`. -/
def isWordChar (c : Char) : Bool := c.isAlphanum || c = '_'

/-- Longest prefix of decimal digits (the greedy `\d+` after `p`). -/
def digitsPrefix (l : List Char) : List Char := l.takeWhile Char.isDigit

/-- Constant from src/src/tasks/PriorityMark.ts line 8: `TRANSPARENCY = "55"`. -/
def TRANSPARENCY : String := "55"

/-- Priority palette, lines 9-14 of PriorityMark.ts. -/
def P0_COLOR : String := "#ff0000" ++ TRANSPARENCY
def P1_COLOR : String := "#ff6600" ++ TRANSPARENCY
def P2_COLOR : String := "#ffaa00" ++ TRANSPARENCY
def P3_COLOR : String := "#ffff00" ++ TRANSPARENCY
def P4_COLOR : String := "#00aa00" ++ TRANSPARENCY
def DEFAULT_COLOR : String := "#99999933"

/-- The regex `/^p(\d+)$/i` of `calculatePriorityColor`: returns the digit
group when the whole string is `p` (case-insensitive) followed by one or
more digits. -/
def priorityDigits : List Char → Option (List Char)
  | [] => none
  | c :: rest =>
    if (c = 'p' || c = 'P') && !rest.isEmpty && rest.all Char.isDigit then
      some rest
    else none

/-- Model of `parseInt` on a non-empty all-digit string (base 10).  JS `parseInt`
loses precision on very long digit strings but every value ≥ 5 lands in
the same `p5+` branch below, so exact `Nat` arithmetic gives the same
colour on every input. -/
def natOfDigits (ds : List Char) : Nat :=
  ds.foldl (fun acc c => acc * 10 + (c.toNat - '0'.toNat)) 0

/-- Function `calculatePriorityColor`, PriorityMark.ts lines 16-34. -/
def calculatePriorityColor (priority : List Char) : String :=
  match priorityDigits priority with
  | none => DEFAULT_COLOR
  | some ds =>
    match natOfDigits ds with
    | 0 => P0_COLOR
    | 1 => P1_COLOR
    | 2 => P2_COLOR
    | 3 => P3_COLOR
    | 4 => P4_COLOR
    | level + 5 =>
      -- `if (level >= 5) return "#00cc00" + TRANSPARENCY` (the trailing
      -- `return DEFAULT_COLOR` of the switch is unreachable for naturals)
      let _ := level
      "#00cc00" ++ TRANSPARENCY

/-- Lower-casing of the matched text (`match[1].toLowerCase()`). -/
def toLowerList (l : List Char) : List Char := l.map Char.toLower

/-- One entry of `priorityRanges` in `PriorityMark.onUpdate` (first pass):
`{start, end, priority, color}`.  `matched` additionally records the raw
matched text `match[0]` (used by `onCreate`'s `text` attribute); for this
regex `match[0] = match[1]`. -/
structure PRange where
  start : Nat
  stop : Nat
  matched : List Char
  priority : List Char
  color : String
  deriving Repr, DecidableEq

/-- Attempt of `/\b(p\d+)\b/gi` at the cursor: `b` is whether the previous
character is a word character (`\b` before the match), `c` the character at
the cursor, `rest` the remaining text.  Returns the digit group on success.
Backtracking of the greedy `\d+` never helps: if the character after the
maximal digit run is a word character, so is the last digit itself. -/
def pTry (b : Bool) (c : Char) (rest : List Char) : Option (List Char) :=
  if b then none
  else if c = 'p' || c = 'P' then
    if (digitsPrefix rest).isEmpty then none
    else
      match rest.drop (digitsPrefix rest).length with
      | [] => some (digitsPrefix rest)
      | d :: _ => if isWordChar d then none else some (digitsPrefix rest)
  else none

/-- Build the `PRange` for a match of `p`+digits at position `i`. -/
def mkPRange (i : Nat) (c : Char) (ds : List Char) : PRange :=
  { start := i
    stop := i + 1 + ds.length
    matched := c :: ds
    priority := toLowerList (c :: ds)
    color := calculatePriorityColor (toLowerList (c :: ds)) }

/-- The JS global-regex scan `while ((match = regex.exec(node.text)) ...)`
for `/\b(p\d+)\b/gi`: the cursor advances past each accepted match.
`fuel` bounds the number of loop iterations; `node.text.length` is always
enough because each iteration advances the cursor by at least one. -/
def pScanJS : Nat → Bool → Nat → List Char → List PRange
  | 0, _, _, _ => []
  | _, _, _, [] => []
  | fuel + 1, b, i, c :: rest =>
    match pTry b c rest with
    | some ds =>
      mkPRange i c ds :: pScanJS fuel true (i + 1 + ds.length) (rest.drop ds.length)
    | none => pScanJS fuel (isWordChar c) (i + 1) rest

/-- Scan of one text node (fresh regex, `match.index` offset by the node
position `i`, as in `start = pos + match.index`). -/
def pScanNode (i : Nat) (t : List Char) : List PRange :=
  pScanJS t.length false i t

/-- The attributes of one `priorityMark` (PriorityMark.ts `addAttributes`):
`priority`, `text`, `uid`, `color`.  `uid` is a `Nat` (see the `nanoid`
modelling note in the header). -/
structure PMark where
  priority : List Char
  text : List Char
  uid : Nat
  color : String
  deriving Repr, DecidableEq

/-- A text node of the document carrying its (at most one) priority mark. -/
structure PNode where
  text : List Char
  pmark : Option PMark
  deriving Repr, DecidableEq

/-- A ProseMirror transaction step produced by the reconciliation passes:
`transaction.addMark(start, end, mark)` or
`transaction.removeMark(start, end, markType)` (the remove step carries
only the mark type). -/
inductive POp where
  | addMark (start stop : Nat) (mark : PMark)
  | removeMark (start stop : Nat)
  deriving Repr, DecidableEq

/-- A dispatched transaction together with its commit-time metadata:
`addToHistory` defaults to `true` and `preventUpdate` to `false` unless the
code calls `setMeta`. -/
structure PTransaction where
  ops : List POp
  addToHistory : Bool
  preventUpdate : Bool
  deriving Repr, DecidableEq

/-- First pass of `onUpdate` via `doc.descendants` (lines 150-168): scan every
text node, collecting `priorityRanges` in document order.  `i` is the
position of the first node. -/
def pScanDoc (i : Nat) : List PNode → List PRange
  | [] => []
  | n :: doc => pScanNode i n.text ++ pScanDoc (i + n.text.length) doc

/-- Traversal `doc.nodesBetween(start, end, ...)` restricted to the marks of our
type: the managed marks of all text nodes overlapping `[start, stop)`. -/
def marksBetween (start stop : Nat) : Nat → List PNode → List PMark
  | _, [] => []
  | i, n :: doc =>
    (if i < stop && start < i + n.text.length then n.pmark.toList else [])
      ++ marksBetween start stop (i + n.text.length) doc

/-- Second pass of `onUpdate` (lines 170-196): for every text node holding
a managed mark, remove it unless some collected range covers the node's
whole span (`range.start <= markStart && range.end >= markEnd`) with an
up-to-date payload. -/
def secondPass (rs : List PRange) : Nat → List PNode → List POp
  | _, [] => []
  | i, n :: doc =>
    (match n.pmark with
     | none => []
     | some m =>
       match rs.find? (fun r => r.start ≤ i && i + n.text.length ≤ r.stop) with
       | none => [POp.removeMark i (i + n.text.length)]
       | some r =>
         if r.priority ≠ m.priority || r.color ≠ m.color then
           [POp.removeMark i (i + n.text.length)]
         else [])
      ++ secondPass rs (i + n.text.length) doc

/-- The fold of lines 204-215: walk the marks within the range; a mark with
equal `priority`/`color` sets `hasCorrectMark`, any other managed mark
overwrites `existingMarkUid` (last writer wins, as with the JS `forEach`). -/
def thirdPassStep (r : PRange) (ms : List PMark) : Bool × Option Nat :=
  ms.foldl
    (fun acc m =>
      if m.priority = r.priority && m.color = r.color then (true, acc.2)
      else (acc.1, some m.uid))
    (false, none)

/-- Third pass of `onUpdate` (lines 198-227): add a mark for every range
not already carrying a correct mark, with
`uid: existingMarkUid || nanoid()` (the stale mark's uid is reused when
one overlaps; a fresh id is drawn only otherwise).  `cnt` is the `nanoid`
counter state. -/
def thirdPass (doc : List PNode) : List PRange → Nat → List POp × Nat
  | [], cnt => ([], cnt)
  | r :: rs, cnt =>
    if (thirdPassStep r (marksBetween r.start r.stop 0 doc)).1 then thirdPass doc rs cnt
    else
      match (thirdPassStep r (marksBetween r.start r.stop 0 doc)).2 with
      | some u =>
        (POp.addMark r.start r.stop ⟨r.priority, r.priority, u, r.color⟩
            :: (thirdPass doc rs cnt).1,
          (thirdPass doc rs cnt).2)
      | none =>
        (POp.addMark r.start r.stop ⟨r.priority, r.priority, cnt, r.color⟩
            :: (thirdPass doc rs (cnt + 1)).1,
          (thirdPass doc rs (cnt + 1)).2)

/-- Hook `PriorityMark.onUpdate` (lines 142-234): three passes; if any
operation was queued the transaction is dispatched with
`setMeta('addToHistory', false)` and `setMeta('preventUpdate', true)`,
otherwise nothing is dispatched. -/
def priorityOnUpdate (doc : List PNode) (cnt : Nat) : Option PTransaction × Nat :=
  if (secondPass (pScanDoc 0 doc) 0 doc ++ (thirdPass doc (pScanDoc 0 doc) cnt).1).isEmpty then
    (none, (thirdPass doc (pScanDoc 0 doc) cnt).2)
  else
    (some ⟨secondPass (pScanDoc 0 doc) 0 doc ++ (thirdPass doc (pScanDoc 0 doc) cnt).1,
        false, true⟩,
      (thirdPass doc (pScanDoc 0 doc) cnt).2)

/-- Hook `PriorityMark.onCreate` (lines 99-140): single pass; for every match
whose range does not already hold a managed mark, add a mark with a fresh
uid (`uid: nanoid()`, `text: match[0]`, lower-cased `priority`).  The
dispatch carries no `setMeta` calls, so the transaction keeps the default
metadata (`addToHistory = true`, `preventUpdate = false`). -/
def onCreateOps (doc : List PNode) : List PRange → Nat → List POp × Nat
  | [], cnt => ([], cnt)
  | r :: rs, cnt =>
    if (marksBetween r.start r.stop 0 doc).isEmpty then
      (POp.addMark r.start r.stop
          ⟨r.priority, r.matched, cnt, calculatePriorityColor r.priority⟩
          :: (onCreateOps doc rs (cnt + 1)).1,
        (onCreateOps doc rs (cnt + 1)).2)
    else onCreateOps doc rs cnt

def priorityOnCreate (doc : List PNode) (cnt : Nat) : Option PTransaction × Nat :=
  if (onCreateOps doc (pScanDoc 0 doc) cnt).1.isEmpty then
    (none, (onCreateOps doc (pScanDoc 0 doc) cnt).2)
  else
    (some ⟨(onCreateOps doc (pScanDoc 0 doc) cnt).1, true, false⟩,
      (onCreateOps doc (pScanDoc 0 doc) cnt).2)

/-! ## CustomTagMark (src/tasks/CustomTagMark.ts, src/unnamed/part_001) -/

/-- Record `CustomTag` from src/src/storage.ts: `{id, tag, color, enabled}`. -/
structure CustomTag where
  id : String
  tag : List Char
  color : String
  enabled : Bool
  deriving Repr, DecidableEq

/-- Attributes of one `customTagMark` (`addAttributes`): `tag`, `text`,
`uid`, `color`. -/
structure CMark where
  tag : List Char
  text : List Char
  uid : Nat
  color : String
  deriving Repr, DecidableEq

/-- A text node carrying its (at most one) custom-tag mark. -/
structure CNode where
  text : List Char
  cmark : Option CMark
  deriving Repr, DecidableEq

/-- Transaction step for the custom-tag mark type. -/
inductive COp where
  | addMark (start stop : Nat) (mark : CMark)
  | removeMark (start stop : Nat)
  deriving Repr, DecidableEq

structure CTransaction where
  ops : List COp
  addToHistory : Bool
  preventUpdate : Bool
  deriving Repr, DecidableEq

/-- Case-insensitive equality of character lists (`'i'` regex flag /
`toLowerCase()` comparisons). -/
def ciEq (a b : List Char) : Bool := toLowerList a = toLowerList b

/-- Word-ness of the last character of a list (`false` when empty). -/
def lastWordChar (l : List Char) : Bool :=
  match l.getLast? with
  | some c => isWordChar c
  | none => false

/-- Word-ness of the first character of a list (`false` when empty). -/
def headWordChar : List Char → Bool
  | [] => false
  | c :: _ => isWordChar c

/-- One alternative of the alternation regex
``new RegExp(`\\b(${pattern})\\b`, 'gi')`` tried at the cursor: the
escaped literal `tag.tag` must match case-insensitively and the trailing
`\b` must hold after it (`\b` compares the word-ness of the last matched
character and of the following character).  The leading `\b` is checked
by the caller.  Returns the matched text `match[0]`. -/
def tagTryOne (tag : List Char) (s : List Char) : Option (List Char) :=
  if (s.take tag.length).length = tag.length && ciEq (s.take tag.length) tag then
    if lastWordChar (s.take tag.length) ≠ headWordChar (s.drop tag.length) then
      some (s.take tag.length)
    else none
  else none

/-- First alternative (in `|` order) that matches at the cursor. -/
def tryAlternatives : List CustomTag → List Char → Option (List Char)
  | [], _ => none
  | tag :: tags, s =>
    match tagTryOne tag.tag s with
    | some m => some m
    | none => tryAlternatives tags s

/-- Ordered alternation at the cursor: JS tries the alternatives in the
order the enabled tags were joined with `|` and commits to the first that
matches.  The leading `\b` compares the previous character's word-ness
`b` with the word-ness of the character at the cursor. -/
def tagTry (tags : List CustomTag) (b : Bool) (s : List Char) : Option (List Char) :=
  if b ≠ headWordChar s then tryAlternatives tags s else none

/-- Record `{start, end, matched text, resolved tag}` for one accepted custom-tag
match: the payload tag is resolved by
`enabledTags.find(t => t.tag.toLowerCase() === tagText.toLowerCase())`. -/
structure CRange where
  start : Nat
  stop : Nat
  matched : List Char
  found : Option CustomTag
  deriving Repr, DecidableEq

/-- Global scan of the alternation regex over one node's text, advancing
past each match.  A zero-length match (possible only for an empty tag
literal) makes the JS `while (regex.exec(...))` loop spin forever because
`lastIndex` stops advancing; the model stops scanning there instead, and
every theorem about this scanner assumes non-empty enabled tag literals,
where model and code agree. -/
def tagScanJS (tags : List CustomTag) : Nat → Bool → Nat → List Char → List CRange
  | 0, _, _, _ => []
  | _, _, _, [] => []
  | fuel + 1, b, i, c :: rest =>
    match tagTry tags b (c :: rest) with
    | some matched =>
      match matched with
      | [] => []  -- zero-length match: JS diverges here (see docstring)
      | mc :: mrest =>
        ⟨i, i + (mc :: mrest).length,
          mc :: mrest,
          tags.find? (fun t => ciEq t.tag (mc :: mrest))⟩
          :: tagScanJS tags fuel (isWordChar ((mc :: mrest).getLast (by simp)))
              (i + (mc :: mrest).length) (rest.drop mrest.length)
    | none => tagScanJS tags fuel (isWordChar c) (i + 1) rest

def tagScanNode (tags : List CustomTag) (i : Nat) (t : List Char) : List CRange :=
  tagScanJS tags t.length false i t

def tagScanDoc (tags : List CustomTag) (i : Nat) : List CNode → List CRange
  | [] => []
  | n :: doc => tagScanNode tags i n.text ++ tagScanDoc tags (i + n.text.length) doc

/-- Traversal `nodesBetween` for custom-tag marks. -/
def cMarksBetween (start stop : Nat) : Nat → List CNode → List CMark
  | _, [] => []
  | i, n :: doc =>
    (if i < stop && start < i + n.text.length then n.cmark.toList else [])
      ++ cMarksBetween start stop (i + n.text.length) doc

/-- The add-only body shared by `CustomTagMark.onCreate` (lines 85-121)
and `CustomTagMark.onUpdate` (lines 141-177): for every match of an
enabled tag, if the range does not already hold one of our marks, add a
mark `{tag: customTag.tag, text: tagText, uid: nanoid(), color:
customTag.color}`.  Matches whose resolution `find` fails are skipped
(`if (!customTag) continue`); with only enabled tags in the alternation
the resolution always succeeds, but the model keeps the check. -/
def customAddOps (doc : List CNode) : List CRange → Nat → List COp × Nat
  | [], cnt => ([], cnt)
  | r :: rs, cnt =>
    match r.found with
    | none => customAddOps doc rs cnt
    | some customTag =>
      if (cMarksBetween r.start r.stop 0 doc).isEmpty then
        (COp.addMark r.start r.stop ⟨customTag.tag, r.matched, cnt, customTag.color⟩
            :: (customAddOps doc rs (cnt + 1)).1,
          (customAddOps doc rs (cnt + 1)).2)
      else customAddOps doc rs cnt

/-- Hook `CustomTagMark.onUpdate` (lines 128-184): early `return` when no tag
is enabled (before any regex is built); otherwise scan and add, and if
anything changed dispatch with `addToHistory = false`,
`preventUpdate = true`.  No pass of this extension ever removes a mark. -/
def customOnUpdate (customTags : List CustomTag) (doc : List CNode) (cnt : Nat) :
    Option CTransaction × Nat :=
  if (customTags.filter (·.enabled)).isEmpty then (none, cnt)
  else
    if (customAddOps doc (tagScanDoc (customTags.filter (·.enabled)) 0 doc) cnt).1.isEmpty then
      (none, (customAddOps doc (tagScanDoc (customTags.filter (·.enabled)) 0 doc) cnt).2)
    else
      (some ⟨(customAddOps doc (tagScanDoc (customTags.filter (·.enabled)) 0 doc) cnt).1,
          false, true⟩,
        (customAddOps doc (tagScanDoc (customTags.filter (·.enabled)) 0 doc) cnt).2)

/-- Hook `CustomTagMark.onCreate` (lines 72-126): same add-only body, but the
dispatch carries no `setMeta` calls. -/
def customOnCreate (customTags : List CustomTag) (doc : List CNode) (cnt : Nat) :
    Option CTransaction × Nat :=
  if (customTags.filter (·.enabled)).isEmpty then (none, cnt)
  else
    if (customAddOps doc (tagScanDoc (customTags.filter (·.enabled)) 0 doc) cnt).1.isEmpty then
      (none, (customAddOps doc (tagScanDoc (customTags.filter (·.enabled)) 0 doc) cnt).2)
    else
      (some ⟨(customAddOps doc (tagScanDoc (customTags.filter (·.enabled)) 0 doc) cnt).1,
          true, false⟩,
        (customAddOps doc (tagScanDoc (customTags.filter (·.enabled)) 0 doc) cnt).2)

/-- Rule list `CustomTagMark.addPasteRules` (lines 214-238): an empty enabled-tag
list yields no paste rule at all (and hence no regex); otherwise one rule
with the alternation regex.  The rule's `getAttributes` supplies no `uid`,
so a pasted mark receives the attribute default `defaultUid` (the single
`nanoid()` drawn when `addAttributes` built the schema, lines 45-50). -/
def customPasteRules (defaultUid : Nat) (customTags : List CustomTag) :
    List (List Char → CMark) :=
  if (customTags.filter (·.enabled)).isEmpty then []
  else
    [fun matched =>
      match customTags.find? (fun t => ciEq t.tag matched && t.enabled) with
      | some customTag => ⟨customTag.tag, matched, defaultUid, customTag.color⟩
      | none => ⟨matched, matched, defaultUid, DEFAULT_COLOR⟩]

/-! ## Applying a transaction (Document Model contract, spec §6)

ProseMirror applies `addMark`/`removeMark` steps by splitting the text
nodes at the range boundaries and setting/clearing the mark of the same
type on the covered pieces; positions are unchanged because no text is
inserted or deleted. -/

/-- Pieces of one node under `addMark(start, stop, m)`: the parts of the
node outside `[start, stop)` keep their mark, the covered part gets `m`
(replacing any mark of the same type, as `Mark.addToSet` does).  Empty
pieces are dropped; a node disjoint from the range is untouched. -/
def splitAdd (start stop : Nat) (m : PMark) (i : Nat) (n : PNode) : List PNode :=
  let len := n.text.length
  let lo := max start i
  let hi := min stop (i + len)
  if lo < hi then
    ((if lo = i then [] else [PNode.mk (n.text.take (lo - i)) n.pmark])
      ++ [PNode.mk ((n.text.drop (lo - i)).take (hi - lo)) (some m)]
      ++ (if hi = i + len then [] else [PNode.mk (n.text.drop (hi - i)) n.pmark]))
  else [n]

/-- Pieces of one node under `removeMark(start, stop, type)`. -/
def splitRemove (start stop : Nat) (i : Nat) (n : PNode) : List PNode :=
  let len := n.text.length
  let lo := max start i
  let hi := min stop (i + len)
  if lo < hi then
    ((if lo = i then [] else [PNode.mk (n.text.take (lo - i)) n.pmark])
      ++ [PNode.mk ((n.text.drop (lo - i)).take (hi - lo)) none]
      ++ (if hi = i + len then [] else [PNode.mk (n.text.drop (hi - i)) n.pmark]))
  else [n]

def applyOp (i : Nat) : POp → List PNode → List PNode
  | _, [] => []
  | POp.addMark start stop m, n :: doc =>
    splitAdd start stop m i n ++ applyOp (i + n.text.length) (POp.addMark start stop m) doc
  | POp.removeMark start stop, n :: doc =>
    splitRemove start stop i n ++ applyOp (i + n.text.length) (POp.removeMark start stop) doc

/-- Apply a list of steps in order, walking the nodes from base position
`i` (positions stay valid throughout because mark steps never change the
text). -/
def applyOpsAt (i : Nat) : List PNode → List POp → List PNode
  | doc, [] => doc
  | doc, op :: ops => applyOpsAt i (applyOp i op doc) ops

/-- Apply a whole transaction's steps in order. -/
def applyOps (doc : List PNode) (ops : List POp) : List PNode := applyOpsAt 0 doc ops

def applyTransaction (doc : List PNode) : Option PTransaction → List PNode
  | none => doc
  | some tr => applyOps doc tr.ops

/-- Start position of a transaction step. -/
def opStart : POp → Nat
  | POp.addMark s _ _ => s
  | POp.removeMark s _ => s

/-- End position of a transaction step. -/
def opStop : POp → Nat
  | POp.addMark _ e _ => e
  | POp.removeMark _ e => e

/-! ## PriorityMark creation paths that bypass the scan passes

`addAttributes` (PriorityMark.ts lines 63-68) evaluates `nanoid()` once
when the extension is initialised; that single value is the `uid`
attribute's default.  `setPriority` (lines 78-90) and the paste rule
(lines 244-259) both call `setMark`/`markPasteRule` with attribute sets
that contain no `uid`, so every mark they create gets the default. -/

/-- The uid attribute default: the one `nanoid()` drawn at initialisation
from generator state `g`. -/
def uidAttrDefault (g : Nat) : Nat := g

/-- Mark created by the `setPriority` command for `level`:
`{priority: `p${level}`, text: priority, color: calculatePriorityColor(priority)}`
(no `uid` supplied). -/
def setPriorityMark (g : Nat) (level : Nat) : PMark :=
  let priority := 'p' :: Nat.toDigits 10 level
  ⟨priority, priority, uidAttrDefault g, calculatePriorityColor priority⟩

/-- Mark created by the paste rule for matched text `m₀`:
`{priority: match[0].toLowerCase(), text: match[0], color: ...}`
(no `uid` supplied). -/
def pasteRuleMark (g : Nat) (m₀ : List Char) : PMark :=
  ⟨toLowerList m₀, m₀, uidAttrDefault g, calculatePriorityColor (toLowerList m₀)⟩

/-! ## Task Extraction View (`Editor.refreshTasks`, src/unnamed/part_003) -/

/-- A `Tasks` record: `{due, uid}`. -/
structure TaskRec where
  due : Int
  uid : Nat
  deriving Repr, DecidableEq

/-- A cached `DOMRect` (only identity matters to the logic). -/
structure Rect where
  top : Int
  left : Int
  width : Int
  height : Int
  deriving Repr, DecidableEq

/-- Result of one `refreshTasks` comparison: the new baseline list, the
updated position cache, and the position at which a completion effect was
spawned (if any). -/
structure RefreshResult where
  tasks : List TaskRec
  positions : List (Nat × Rect)
  effect : Option Rect
  deriving Repr, DecidableEq

/-- Completed-task uids of one comparison: uids present in the old list
but absent from the new one (`completedTasks`, part_003 lines 79-81). -/
def completedUids (oldTasks newTasks : List TaskRec) : List Nat :=
  (oldTasks.filter (fun t => !(newTasks.any (fun t2 => t2.uid = t.uid)))).map (·.uid)

/-- Function `Editor.refreshTasks` (part_003 lines 73-108), given the freshly
derived `newTasks`:

* `JSON.stringify(oldTasks) !== JSON.stringify(newTasks)` is structural
  list inequality (`Tasks` is a flat record of a number and a string);
* `completedTasks` are the old uids absent from the new list;
* only when exactly one task completed, and its position is cached, and
  the `#effects-layer` element exists (`layer`), is the one-shot effect
  spawned — and only then is the cache entry evicted;
* the new list becomes the baseline whenever the lists differ. -/
def refreshTasks (layer : Bool) (positions : List (Nat × Rect))
    (oldTasks newTasks : List TaskRec) : RefreshResult :=
  if oldTasks = newTasks then ⟨oldTasks, positions, none⟩
  else
    match completedUids oldTasks newTasks with
    | [id] =>
      match positions.lookup id with
      | some boundingRect =>
        if layer then
          ⟨newTasks, positions.filter (fun p => p.1 ≠ id), some boundingRect⟩
        else ⟨newTasks, positions, none⟩
      | none => ⟨newTasks, positions, none⟩
    | _ => ⟨newTasks, positions, none⟩

/-- Rendered inline style of a custom-tag mark (part_001 line 54):
`background: ${attributes.color}${TRANSPARENCY}; ...` — the fixed alpha
suffix is appended to the stored colour at render time. -/
def customTagStyle (color : String) : String :=
  "background: " ++ color ++ TRANSPARENCY ++
    "; padding: 0.15em 0.3em; border-radius: 5px; font-weight: 500;"

/-- Uids of the marks added by a list of transaction steps. -/
def addUids (ops : List POp) : List Nat :=
  ops.filterMap fun op =>
    match op with
    | POp.addMark _ _ m => some m.uid
    | POp.removeMark _ _ => none

/-- Whether a custom-tag transaction step is an `addMark`. -/
def COp.isAddMark : COp → Bool
  | COp.addMark _ _ _ => true
  | COp.removeMark _ _ => false

/-- Operations carried by an optional transaction (none dispatched → none
queued). -/
def cOpsOf (tr : Option CTransaction) : List COp :=
  match tr with
  | none => []
  | some tr => tr.ops

/-! ### Positional view of the priority scan and canonical fragmentation
(used to settle the idempotence claim C3) -/

/-- Word-ness of the character at position `k` (`false` past the end). -/
def wordAt (t : List Char) (k : Nat) : Bool :=
  match t[k]? with
  | some c => isWordChar c
  | none => false

/-- The scanner's previous-character flag at position `k`: whether the
character at `k - 1` is a word character (`false` at the start). -/
def flagAt (t : List Char) (k : Nat) : Bool :=
  if k = 0 then false else wordAt t (k - 1)

/-- Positional candidate: the digits of a `\b(p\d+)\b` match starting at
position `k` of `t`, if any. -/
def candAt (t : List Char) (k : Nat) : Option (List Char) :=
  match t[k]? with
  | some c => pTry (flagAt t k) c (t.drop (k + 1))
  | none => none

/-- All matches of `t` from position `k` on, in positional form (the
offset of the node is `i`).  Agrees with the sequential scan
(`pScanJS_eq_candList`). -/
def candList (t : List Char) (i : Nat) (k : Nat) : List PRange :=
  if h : k < t.length then
    match candAt t k with
    | some ds => mkPRange (i + k) (t.get ⟨k, h⟩) ds :: candList t i (k + 1 + ds.length)
    | none => candList t i (k + 1)
  else []
termination_by t.length - k

/-- Canonical fragmentation of one text node by a sorted list of match
ranges (`i` is the node's position): alternating unmarked gaps and marked
tokens, exactly the shape `addMark` steps leave behind.  The marks carry
the uids `cnt, cnt+1, ...` in range order. -/
def fragmentNode (i : Nat) (t : List Char) : List PRange → Nat → List PNode
  | [], _ => if t.isEmpty then [] else [⟨t, none⟩]
  | r :: rs, cnt =>
    (if r.start = i then [] else [⟨t.take (r.start - i), none⟩])
      ++ ⟨(t.drop (r.start - i)).take (r.stop - r.start),
          some ⟨r.priority, r.priority, cnt, r.color⟩⟩
      :: fragmentNode r.stop (t.drop (r.stop - i)) rs (cnt + 1)

/-- Canonical fragmentation of a whole document. -/
def fragsDoc (i : Nat) : List PNode → Nat → List PNode
  | [], _ => []
  | n :: doc, cnt =>
    fragmentNode i n.text (pScanNode i n.text) cnt
      ++ fragsDoc (i + n.text.length) doc (cnt + (pScanNode i n.text).length)

/-- The operations the third pass emits over a mark-free document: one
`addMark` per range, with fresh uids `cnt, cnt+1, ...`. -/
def addsOf : List PRange → Nat → List POp × Nat
  | [], cnt => ([], cnt)
  | r :: rs, cnt =>
    (POp.addMark r.start r.stop ⟨r.priority, r.priority, cnt, r.color⟩
        :: (addsOf rs (cnt + 1)).1,
      (addsOf rs (cnt + 1)).2)

/-! ## Non-overlap of the scan output (C4) -/

/-- Total text length of a node list. -/
def docLen (doc : List PNode) : Nat := (doc.map (fun n => n.text.length)).sum

def cDocLen (doc : List CNode) : Nat := (doc.map (fun n => n.text.length)).sum

/-- Two ranges do not overlap (half-open intervals). -/
def PRange.disjoint (a b : PRange) : Prop := a.stop ≤ b.start ∨ b.stop ≤ a.start

def CRange.disjoint (a b : CRange) : Prop := a.stop ≤ b.start ∨ b.stop ≤ a.start

/-- Inversion of a successful `pTry`. -/
theorem pTry_some {b : Bool} {c : Char} {rest ds : List Char}
    (h : pTry b c rest = some ds) :
    b = false ∧ (c = 'p' ∨ c = 'P') ∧ ds = digitsPrefix rest ∧ ds ≠ [] := by
  unfold pTry at h
  split at h
  · exact absurd h (by simp)
  · split at h
    · split at h
      · exact absurd h (by simp)
      · next hb hc hne =>
        refine ⟨by simpa using hb, by simpa [Decidable.or_iff_not_imp_left] using hc, ?_⟩
        split at h
        · refine ⟨by simpa using h.symm, ?_⟩
          intro hnil
          have hds : digitsPrefix rest = ds := by simpa using h
          rw [hds, hnil] at hne
          simp at hne
        · split at h
          · exact absurd h (by simp)
          · refine ⟨by simpa using h.symm, ?_⟩
            intro hnil
            have hds : digitsPrefix rest = ds := by simpa using h
            rw [hds, hnil] at hne
            simp at hne
    · exact absurd h (by simp)

theorem digitsPrefix_length_le (l : List Char) : (digitsPrefix l).length ≤ l.length :=
  (List.takeWhile_prefix _).length_le

theorem pScanJS_bounds (fuel : Nat) :
    ∀ b i t, ∀ r ∈ pScanJS fuel b i t,
      i ≤ r.start ∧ r.start < r.stop ∧ r.stop ≤ i + t.length := by
  induction fuel with
  | zero => intro b i t r hr; simp [pScanJS] at hr
  | succ fuel ih =>
    intro b i t r hr
    match t with
    | [] => simp [pScanJS] at hr
    | c :: rest =>
      rw [pScanJS] at hr
      cases hTry : pTry b c rest with
      | none =>
        rw [hTry] at hr
        have := ih (isWordChar c) (i + 1) rest r hr
        simp only [List.length_cons]
        omega
      | some ds =>
        rw [hTry] at hr
        have hds : ds.length ≤ rest.length := by
          rw [(pTry_some hTry).2.2.1]
          exact digitsPrefix_length_le rest
        rcases List.mem_cons.mp hr with h | h
        · subst h
          simp only [mkPRange, List.length_cons]
          omega
        · have := ih true (i + 1 + ds.length) (rest.drop ds.length) r h
          simp only [List.length_drop, List.length_cons] at *
          omega

theorem pScanJS_sorted (fuel : Nat) :
    ∀ b i t, (pScanJS fuel b i t).Pairwise (fun a b => a.stop ≤ b.start) := by
  induction fuel with
  | zero => intro b i t; simp [pScanJS]
  | succ fuel ih =>
    intro b i t
    match t with
    | [] => simp [pScanJS]
    | c :: rest =>
      rw [pScanJS]
      cases hTry : pTry b c rest with
      | none => exact ih (isWordChar c) (i + 1) rest
      | some ds =>
        refine List.pairwise_cons.mpr ⟨?_, ih true (i + 1 + ds.length) (rest.drop ds.length)⟩
        intro r hr
        have := (pScanJS_bounds fuel true (i + 1 + ds.length) (rest.drop ds.length) r hr).1
        simp only [mkPRange]
        omega

theorem tagTryOne_some {tag s matched : List Char}
    (h : tagTryOne tag s = some matched) :
    matched = s.take tag.length ∧ matched.length = tag.length := by
  unfold tagTryOne at h
  split at h
  · next hlen =>
    have h1 : (s.take tag.length).length = tag.length := by
      simpa using ((Bool.and_eq_true _ _).mp hlen).1
    split at h
    · have hm : matched = s.take tag.length := by simpa using h.symm
      exact ⟨hm, by rw [hm]; exact h1⟩
    · exact absurd h (by simp)
  · exact absurd h (by simp)

theorem tryAlternatives_some {tags : List CustomTag} {s matched : List Char}
    (h : tryAlternatives tags s = some matched) :
    ∃ tag ∈ tags, tagTryOne tag.tag s = some matched := by
  induction tags with
  | nil => simp [tryAlternatives] at h
  | cons tag tags ih =>
    rw [tryAlternatives] at h
    cases h1 : tagTryOne tag.tag s with
    | some m =>
      rw [h1] at h
      exact ⟨tag, by simp, by simpa [h1] using h⟩
    | none =>
      rw [h1] at h
      obtain ⟨t, ht, hm⟩ := ih h
      exact ⟨t, by simp [ht], hm⟩

theorem tagTry_some {tags : List CustomTag} {b : Bool} {s matched : List Char}
    (h : tagTry tags b s = some matched) : matched.length ≤ s.length := by
  unfold tagTry at h
  split at h
  · obtain ⟨tag, _, hone⟩ := tryAlternatives_some h
    rw [(tagTryOne_some hone).1, List.length_take]
    exact min_le_right _ _
  · exact absurd h (by simp)

theorem tagScanJS_bounds (tags : List CustomTag) (fuel : Nat) :
    ∀ b i t, ∀ r ∈ tagScanJS tags fuel b i t,
      i ≤ r.start ∧ r.start < r.stop ∧ r.stop ≤ i + t.length := by
  induction fuel with
  | zero => intro b i t r hr; simp [tagScanJS] at hr
  | succ fuel ih =>
    intro b i t r hr
    match t with
    | [] => simp [tagScanJS] at hr
    | c :: rest =>
      rw [tagScanJS] at hr
      cases hTry : tagTry tags b (c :: rest) with
      | none =>
        rw [hTry] at hr
        have := ih (isWordChar c) (i + 1) rest r hr
        simp only [List.length_cons]
        omega
      | some matched =>
        rw [hTry] at hr
        have hlen : matched.length ≤ rest.length + 1 := by
          simpa using tagTry_some hTry
        match matched with
        | [] => simp at hr
        | mc :: mrest =>
          rcases List.mem_cons.mp hr with h | h
          · subst h
            simp only [List.length_cons] at *
            omega
          · have := ih (isWordChar ((mc :: mrest).getLast (by simp)))
              (i + (mc :: mrest).length) (rest.drop mrest.length) r h
            simp only [List.length_drop, List.length_cons] at *
            omega

theorem tagScanJS_sorted (tags : List CustomTag) (fuel : Nat) :
    ∀ b i t, (tagScanJS tags fuel b i t).Pairwise (fun a b => a.stop ≤ b.start) := by
  induction fuel with
  | zero => intro b i t; simp [tagScanJS]
  | succ fuel ih =>
    intro b i t
    match t with
    | [] => simp [tagScanJS]
    | c :: rest =>
      rw [tagScanJS]
      cases hTry : tagTry tags b (c :: rest) with
      | none => exact ih (isWordChar c) (i + 1) rest
      | some matched =>
        match matched with
        | [] => simp
        | mc :: mrest =>
          refine List.pairwise_cons.mpr ⟨?_, ih _ _ _⟩
          intro r hr
          have := (tagScanJS_bounds tags fuel _ (i + (mc :: mrest).length)
            (rest.drop mrest.length) r hr).1
          simpa using this

theorem pScanDoc_bounds :
    ∀ doc i, ∀ r ∈ pScanDoc i doc, i ≤ r.start ∧ r.start < r.stop ∧ r.stop ≤ i + docLen doc := by
  intro doc
  induction doc with
  | nil => intro i r hr; simp [pScanDoc] at hr
  | cons n doc ih =>
    intro i r hr
    rw [pScanDoc] at hr
    rcases List.mem_append.mp hr with h | h
    · have := pScanJS_bounds n.text.length false i n.text r h
      simp only [docLen, List.map_cons, List.sum_cons]
      omega
    · have := ih (i + n.text.length) r h
      simp only [docLen, List.map_cons, List.sum_cons] at *
      omega

theorem pScanDoc_sorted (doc : List PNode) (i : Nat) :
    (pScanDoc i doc).Pairwise (fun a b => a.stop ≤ b.start) := by
  induction doc generalizing i with
  | nil => simp [pScanDoc]
  | cons n doc ih =>
    rw [pScanDoc]
    refine List.pairwise_append.mpr ⟨pScanJS_sorted _ _ _ _, ih _, ?_⟩
    intro a ha b hb
    have h1 := (pScanJS_bounds n.text.length false i n.text a ha).2.2
    have h2 := (pScanDoc_bounds doc (i + n.text.length) b hb).1
    omega

theorem tagScanDoc_bounds (tags : List CustomTag) :
    ∀ doc i, ∀ r ∈ tagScanDoc tags i doc,
      i ≤ r.start ∧ r.start < r.stop ∧ r.stop ≤ i + cDocLen doc := by
  intro doc
  induction doc with
  | nil => intro i r hr; simp [tagScanDoc] at hr
  | cons n doc ih =>
    intro i r hr
    rw [tagScanDoc] at hr
    rcases List.mem_append.mp hr with h | h
    · have := tagScanJS_bounds tags n.text.length false i n.text r h
      simp only [cDocLen, List.map_cons, List.sum_cons]
      omega
    · have := ih (i + n.text.length) r h
      simp only [cDocLen, List.map_cons, List.sum_cons] at *
      omega

theorem tagScanDoc_sorted (tags : List CustomTag) (doc : List CNode) (i : Nat) :
    (tagScanDoc tags i doc).Pairwise (fun a b => a.stop ≤ b.start) := by
  induction doc generalizing i with
  | nil => simp [tagScanDoc]
  | cons n doc ih =>
    rw [tagScanDoc]
    refine List.pairwise_append.mpr ⟨tagScanJS_sorted _ _ _ _ _, ih _, ?_⟩
    intro a ha b hb
    have h1 := (tagScanJS_bounds tags n.text.length false i n.text a ha).2.2
    have h2 := (tagScanDoc_bounds tags doc (i + n.text.length) b hb).1
    omega

/-- C4: For every document state and every set of enabled patterns, the
matches produced by one pattern-scanning pass are mutually
non-overlapping: no two returned matches have overlapping character
ranges, for both the priority scan and the custom-tag alternation scan
(leftmost-first scanning with an advancing cursor; case-insensitivity and
word-boundary delimiting are part of `pTry`/`tagTry`). -/
theorem C4_matches_non_overlapping :
    (∀ (doc : List PNode) (i : Nat), (pScanDoc i doc).Pairwise PRange.disjoint) ∧
    (∀ (tags : List CustomTag) (doc : List CNode) (i : Nat),
        (tagScanDoc tags i doc).Pairwise CRange.disjoint) := by
  constructor
  · intro doc i
    exact (pScanDoc_sorted doc i).imp (fun h => Or.inl h)
  · intro tags doc i
    exact (tagScanDoc_sorted tags doc i).imp (fun h => Or.inl h)

/-! ## Payload rules (C7) -/

theorem pScanJS_payload (fuel : Nat) :
    ∀ b i t, ∀ r ∈ pScanJS fuel b i t,
      r.priority = toLowerList r.matched ∧
      r.matched = (t.drop (r.start - i)).take (r.stop - r.start) ∧
      r.color = calculatePriorityColor r.priority := by
  induction fuel with
  | zero => intro b i t r hr; simp [pScanJS] at hr
  | succ fuel ih =>
    intro b i t r hr
    match t with
    | [] => simp [pScanJS] at hr
    | c :: rest =>
      rw [pScanJS] at hr
      cases hTry : pTry b c rest with
      | none =>
        rw [hTry] at hr
        obtain ⟨h1, h2, h3⟩ := ih (isWordChar c) (i + 1) rest r hr
        have hb := (pScanJS_bounds fuel (isWordChar c) (i + 1) rest r hr).1
        refine ⟨h1, ?_, h3⟩
        rw [h2]
        congr 1
        rw [show r.start - i = (r.start - (i + 1)) + 1 by omega]
        rw [List.drop_succ_cons]
      | some ds =>
        rw [hTry] at hr
        obtain ⟨-, -, hds, -⟩ := pTry_some hTry
        rcases List.mem_cons.mp hr with h | h
        · subst h
          refine ⟨rfl, ?_, rfl⟩
          simp only [mkPRange]
          rw [Nat.sub_self, List.drop_zero,
            show i + 1 + ds.length - i = ds.length + 1 by omega,
            List.take_succ_cons]
          congr 1
          rw [hds]
          exact List.prefix_iff_eq_take.mp (List.takeWhile_prefix _)
        · obtain ⟨h1, h2, h3⟩ := ih true (i + 1 + ds.length) (rest.drop ds.length) r h
          have hb := (pScanJS_bounds fuel true (i + 1 + ds.length) (rest.drop ds.length) r h).1
          refine ⟨h1, ?_, h3⟩
          rw [h2]
          congr 1
          rw [List.drop_drop,
            show ds.length + (r.start - (i + 1 + ds.length)) = r.start - (i + 1) by omega,
            show r.start - i = (r.start - (i + 1)) + 1 by omega,
            List.drop_succ_cons]

theorem calculatePriorityColor_p0 (s ds : List Char) (h : priorityDigits s = some ds)
    (hn : natOfDigits ds = 0) : calculatePriorityColor s = P0_COLOR := by
  unfold calculatePriorityColor; rw [h]; dsimp only; rw [hn]

theorem calculatePriorityColor_p1 (s ds : List Char) (h : priorityDigits s = some ds)
    (hn : natOfDigits ds = 1) : calculatePriorityColor s = P1_COLOR := by
  unfold calculatePriorityColor; rw [h]; dsimp only; rw [hn]

theorem calculatePriorityColor_p2 (s ds : List Char) (h : priorityDigits s = some ds)
    (hn : natOfDigits ds = 2) : calculatePriorityColor s = P2_COLOR := by
  unfold calculatePriorityColor; rw [h]; dsimp only; rw [hn]

theorem calculatePriorityColor_p3 (s ds : List Char) (h : priorityDigits s = some ds)
    (hn : natOfDigits ds = 3) : calculatePriorityColor s = P3_COLOR := by
  unfold calculatePriorityColor; rw [h]; dsimp only; rw [hn]

theorem calculatePriorityColor_p4 (s ds : List Char) (h : priorityDigits s = some ds)
    (hn : natOfDigits ds = 4) : calculatePriorityColor s = P4_COLOR := by
  unfold calculatePriorityColor; rw [h]; dsimp only; rw [hn]

theorem calculatePriorityColor_p5plus (s ds : List Char) (h : priorityDigits s = some ds)
    (hn : 5 ≤ natOfDigits ds) :
    calculatePriorityColor s = "#00cc00" ++ TRANSPARENCY := by
  obtain ⟨k, hk⟩ : ∃ k, natOfDigits ds = k + 5 := ⟨natOfDigits ds - 5, by omega⟩
  unfold calculatePriorityColor; rw [h]; dsimp only; rw [hk]

theorem calculatePriorityColor_default (s : List Char) (h : priorityDigits s = none) :
    calculatePriorityColor s = DEFAULT_COLOR := by
  unfold calculatePriorityColor; rw [h]

/-- C7: For every matched priority token, the payload label (`priority`)
is the literal matched text lower-cased (and the matched text is the
literal slice of the node text), and the computed colour is: the fixed
red-to-green palette entry for levels 0-4, the lighter green
`"#00cc00" + TRANSPARENCY` for level 5 and above, and `DEFAULT_COLOR`
(neutral gray) for any input not of the form `p<digits>`. -/
theorem C7_priority_payload :
    (∀ (fuel : Nat) (b : Bool) (i : Nat) (t : List Char), ∀ r ∈ pScanJS fuel b i t,
        r.priority = toLowerList r.matched ∧
        r.matched = (t.drop (r.start - i)).take (r.stop - r.start) ∧
        r.color = calculatePriorityColor r.priority) ∧
    (∀ s ds, priorityDigits s = some ds →
        (natOfDigits ds = 0 → calculatePriorityColor s = P0_COLOR) ∧
        (natOfDigits ds = 1 → calculatePriorityColor s = P1_COLOR) ∧
        (natOfDigits ds = 2 → calculatePriorityColor s = P2_COLOR) ∧
        (natOfDigits ds = 3 → calculatePriorityColor s = P3_COLOR) ∧
        (natOfDigits ds = 4 → calculatePriorityColor s = P4_COLOR) ∧
        (5 ≤ natOfDigits ds → calculatePriorityColor s = "#00cc00" ++ TRANSPARENCY)) ∧
    (∀ s, priorityDigits s = none → calculatePriorityColor s = DEFAULT_COLOR) := by
  refine ⟨pScanJS_payload, fun s ds h => ⟨?_, ?_, ?_, ?_, ?_, ?_⟩, fun s h => ?_⟩
  · exact calculatePriorityColor_p0 s ds h
  · exact calculatePriorityColor_p1 s ds h
  · exact calculatePriorityColor_p2 s ds h
  · exact calculatePriorityColor_p3 s ds h
  · exact calculatePriorityColor_p4 s ds h
  · exact calculatePriorityColor_p5plus s ds h
  · exact calculatePriorityColor_default s h

/-- Witness for C7 at concrete inputs: the scan of `"x P3"` yields the
range `[2,4)` with lower-cased label `p3` and the `P3` palette colour;
`p0` maps to the red entry, `p7` to the lighter green, and the malformed
`px` to the default gray. -/
theorem C7_priority_payload_witness :
    ((⟨2, 4, ['P', '3'], ['p', '3'],
        calculatePriorityColor ['p', '3']⟩ : PRange).priority =
          toLowerList ['P', '3']) ∧
    calculatePriorityColor ['p', '0'] = P0_COLOR ∧
    calculatePriorityColor ['p', '7'] = "#00cc00" ++ TRANSPARENCY ∧
    calculatePriorityColor ['p', 'x'] = DEFAULT_COLOR := by
  refine ⟨?_, ?_, ?_, ?_⟩
  · exact (C7_priority_payload.1 4 false 0 ['x', ' ', 'P', '3'] _ (by decide)).1
  · exact (C7_priority_payload.2.1 ['p', '0'] ['0'] (by decide)).1 (by decide)
  · exact (C7_priority_payload.2.1 ['p', '7'] ['7'] (by decide)).2.2.2.2.2 (by decide)
  · exact C7_priority_payload.2.2 ['p', 'x'] (by decide)

/-- Counterexample to C8: there is no single fixed alpha suffix shared by
all annotation colours.  The priority palette appends `TRANSPARENCY =
"55"`, but the neutral default colour is `"#99999933"`, whose alpha is
`"33"`. -/
theorem C8_counterexample :
    P0_COLOR = "#ff0000" ++ "55" ∧
    DEFAULT_COLOR = "#999999" ++ "33" ∧
    ("55" : String) ≠ "33" ∧
    DEFAULT_COLOR ≠ "#999999" ++ TRANSPARENCY := by
  refine ⟨rfl, rfl, by decide, by decide⟩

/-- C8 as amended: every priority-palette colour (any `p<digits>` input)
is a base hex colour with the fixed alpha suffix `TRANSPARENCY`
appended, and the custom-tag renderer appends the same suffix to the
stored colour; the default gray, however, is semi-transparent with the
different alpha `"33"`. -/
theorem C8_amended_alpha_suffix :
    (∀ s ds, priorityDigits s = some ds →
        ∃ base, calculatePriorityColor s = base ++ TRANSPARENCY) ∧
    (∃ pre post, ∀ color, customTagStyle color = pre ++ (color ++ TRANSPARENCY) ++ post) ∧
    DEFAULT_COLOR = "#999999" ++ "33" := by
  refine ⟨?_, ?_, rfl⟩
  · intro s ds h
    rcases hn : natOfDigits ds with _ | n
    · exact ⟨"#ff0000", calculatePriorityColor_p0 s ds h hn⟩
    · rcases n with _ | n
      · exact ⟨"#ff6600", calculatePriorityColor_p1 s ds h hn⟩
      · rcases n with _ | n
        · exact ⟨"#ffaa00", calculatePriorityColor_p2 s ds h hn⟩
        · rcases n with _ | n
          · exact ⟨"#ffff00", calculatePriorityColor_p3 s ds h hn⟩
          · rcases n with _ | n
            · exact ⟨"#00aa00", calculatePriorityColor_p4 s ds h hn⟩
            · exact ⟨"#00cc00", calculatePriorityColor_p5plus s ds h (by omega)⟩
  · refine ⟨"background: ", "; padding: 0.15em 0.3em; border-radius: 5px; font-weight: 500;", ?_⟩
    intro color
    simp [customTagStyle, String.append_assoc]

/-- Witness for the amended C8 at the concrete input `p2`. -/
theorem C8_amended_alpha_suffix_witness :
    ∃ base, calculatePriorityColor ['p', '2'] = base ++ TRANSPARENCY :=
  C8_amended_alpha_suffix.1 ['p', '2'] ['2'] (by decide)

/-! ## Uid freshness of the scan passes and the shared attribute default (C10) -/

theorem onCreateOps_cnt_le (doc : List PNode) :
    ∀ rs cnt, cnt ≤ (onCreateOps doc rs cnt).2 := by
  intro rs
  induction rs with
  | nil => intro cnt; simp [onCreateOps]
  | cons r rs ih =>
    intro cnt
    rw [onCreateOps]
    split
    · have := ih (cnt + 1)
      simpa using by omega
    · exact ih cnt

theorem addUids_add_cons (a b : Nat) (m : PMark) (ops : List POp) :
    addUids (POp.addMark a b m :: ops) = m.uid :: addUids ops := rfl

theorem addUids_remove_cons (a b : Nat) (ops : List POp) :
    addUids (POp.removeMark a b :: ops) = addUids ops := rfl

theorem onCreateOps_uid_bounds (doc : List PNode) :
    ∀ rs cnt, ∀ u ∈ addUids (onCreateOps doc rs cnt).1,
      cnt ≤ u ∧ u < (onCreateOps doc rs cnt).2 := by
  intro rs
  induction rs with
  | nil => intro cnt u hu; simp [onCreateOps, addUids] at hu
  | cons r rs ih =>
    intro cnt u hu
    rw [onCreateOps] at hu ⊢
    split at hu
    · next hEmpty =>
      rw [addUids_add_cons] at hu
      rcases List.mem_cons.mp hu with h | h
      · have hu' : u = cnt := h
        have := onCreateOps_cnt_le doc rs (cnt + 1)
        simp only [if_pos hEmpty]
        omega
      · have := ih (cnt + 1) u h
        simp only [if_pos hEmpty]
        omega
    · next hEmpty =>
      have := ih cnt u hu
      simp only [if_neg hEmpty]
      omega

theorem onCreateOps_uid_pairwise (doc : List PNode) :
    ∀ rs cnt, (addUids (onCreateOps doc rs cnt).1).Pairwise (· ≠ ·) := by
  intro rs
  induction rs with
  | nil => intro cnt; simp [onCreateOps, addUids]
  | cons r rs ih =>
    intro cnt
    rw [onCreateOps]
    split
    · rw [addUids_add_cons]
      refine List.pairwise_cons.mpr ⟨?_, ih (cnt + 1)⟩
      intro u hu
      show cnt ≠ u
      have := (onCreateOps_uid_bounds doc rs (cnt + 1) u hu).1
      omega
    · exact ih cnt

/-- C10: marks created through the paste rule or the `setPriority`
command all receive the same uid — the single `nanoid()` default drawn
when `addAttributes` was evaluated at extension initialisation — for the
priority extension and for the custom-tag paste rule alike; fresh
per-mark uids (pairwise distinct) are generated only by the scan passes
(`onCreate` shown), so mark uids are not globally unique across creation
paths. -/
theorem C10_uid_default_shared :
    (∀ g level m₀, (setPriorityMark g level).uid = uidAttrDefault g ∧
        (pasteRuleMark g m₀).uid = uidAttrDefault g) ∧
    (∀ d tags m₀,
        ((customPasteRules d tags).map (fun f => (f m₀).uid)).all (fun u => u = d)) ∧
    (∀ doc cnt, (addUids (onCreateOps doc (pScanDoc 0 doc) cnt).1).Pairwise (· ≠ ·)) := by
  refine ⟨fun g level m₀ => ⟨rfl, rfl⟩, ?_, fun doc cnt => onCreateOps_uid_pairwise doc _ cnt⟩
  intro d tags m₀
  unfold customPasteRules
  split
  · simp
  · simp only [List.map_cons, List.map_nil, List.all_cons, List.all_nil]
    split
    · simp
    · simp

/-! ## Zero enabled patterns (C9) and the add-only custom pass (C1) -/

/-- C9: if zero custom tags are enabled, both lifecycle passes return
before constructing any regex — no scan runs, no operation is queued, no
transaction is dispatched — and `addPasteRules` registers no rule. -/
theorem C9_zero_enabled_patterns (tags : List CustomTag) (doc : List CNode)
    (cnt defaultUid : Nat) (h : (tags.filter (·.enabled)).isEmpty = true) :
    customOnUpdate tags doc cnt = (none, cnt) ∧
    customOnCreate tags doc cnt = (none, cnt) ∧
    customPasteRules defaultUid tags = [] := by
  refine ⟨?_, ?_, ?_⟩
  · unfold customOnUpdate; rw [if_pos h]
  · unfold customOnCreate; rw [if_pos h]
  · unfold customPasteRules; rw [if_pos h]

/-- Witness for C9: the configuration holding only a disabled `review`
tag takes the early-return path on a document that still contains the
literal text. -/
theorem C9_zero_enabled_patterns_witness :
    customOnUpdate [⟨"review", ['r', 'e', 'v', 'i', 'e', 'w'], "#4ecdc4", false⟩]
      [⟨['r', 'e', 'v', 'i', 'e', 'w'], none⟩] 0 = (none, 0) :=
  (C9_zero_enabled_patterns _ _ 0 0 (by decide)).1

theorem customAddOps_all_adds (doc : List CNode) :
    ∀ rs cnt, ((customAddOps doc rs cnt).1).all COp.isAddMark = true := by
  intro rs
  induction rs with
  | nil => intro cnt; simp [customAddOps]
  | cons r rs ih =>
    intro cnt
    rw [customAddOps]
    match r.found with
    | none => exact ih cnt
    | some customTag =>
      dsimp only
      split
      · simp only [List.all_cons, Bool.and_eq_true]
        exact ⟨rfl, ih (cnt + 1)⟩
      · exact ih cnt

/-- Counterexample to C1: configuration `[review (disabled), todo
(enabled)]`, document holding the single text node `"review"` that still
carries a `review` custom-tag mark.  The next `onUpdate` pass emits no
operation at all — in particular no `Remove` — and dispatches nothing,
although the claim requires the stale mark to be removed. -/
theorem C1_counterexample :
    customOnUpdate
      [⟨"review", ['r', 'e', 'v', 'i', 'e', 'w'], "#4ecdc4", false⟩,
       ⟨"todo", ['t', 'o', 'd', 'o'], "#f7b731", true⟩]
      [⟨['r', 'e', 'v', 'i', 'e', 'w'],
        some ⟨['r', 'e', 'v', 'i', 'e', 'w'], ['r', 'e', 'v', 'i', 'e', 'w'], 5, "#4ecdc4"⟩⟩]
      0 = (none, 0) := by
  decide

/-- C1 as amended: the custom-tag reconciliation pass never removes a
mark.  Every operation either lifecycle pass ever queues is an
`addMark`, so a mark whose tag was disabled (or deleted) in configuration
persists even though no current match corresponds to it. -/
theorem C1_amended_no_removal (tags : List CustomTag) (doc : List CNode) (cnt : Nat) :
    (cOpsOf (customOnUpdate tags doc cnt).1).all COp.isAddMark = true ∧
    (cOpsOf (customOnCreate tags doc cnt).1).all COp.isAddMark = true := by
  constructor
  · unfold customOnUpdate
    split
    · rfl
    · split
      · rfl
      · exact customAddOps_all_adds doc _ cnt
  · unfold customOnCreate
    split
    · rfl
    · split
      · rfl
      · exact customAddOps_all_adds doc _ cnt

/-! ## Transaction metadata of the lifecycle hooks (C5) -/

/-- Counterexample to C5: on the initial-load full scan (`onCreate`) over
the document `"p1"`, a transaction *is* dispatched, but it carries the
default metadata — `addToHistory = true`, `preventUpdate = false` — since
`PriorityMark.onCreate` (and `CustomTagMark.onCreate`) call no
`setMeta` before `dispatch`.  The initial-load transaction therefore
creates an undo checkpoint and can re-trigger update listeners, contrary
to the claim. -/
theorem C5_counterexample :
    ((priorityOnCreate [⟨['p', '1'], none⟩] 0).1).map PTransaction.addToHistory =
        some true ∧
    ((priorityOnCreate [⟨['p', '1'], none⟩] 0).1).map PTransaction.preventUpdate =
        some false := by
  decide

/-- C5 as amended: only the after-every-edit re-scan (`onUpdate`) tags
its transaction with `addToHistory = false` and `preventUpdate = true`
(for both the priority and the custom-tag extension); the initial-load
full scan (`onCreate`) dispatches its transaction untagged, with the
default metadata. -/
theorem C5_amended_meta_flags :
    (∀ (doc : List PNode) (cnt : Nat) tr, (priorityOnUpdate doc cnt).1 = some tr →
        tr.addToHistory = false ∧ tr.preventUpdate = true) ∧
    (∀ (tags : List CustomTag) (doc : List CNode) (cnt : Nat) tr,
        (customOnUpdate tags doc cnt).1 = some tr →
        tr.addToHistory = false ∧ tr.preventUpdate = true) ∧
    (∀ (doc : List PNode) (cnt : Nat) tr, (priorityOnCreate doc cnt).1 = some tr →
        tr.addToHistory = true ∧ tr.preventUpdate = false) ∧
    (∀ (tags : List CustomTag) (doc : List CNode) (cnt : Nat) tr,
        (customOnCreate tags doc cnt).1 = some tr →
        tr.addToHistory = true ∧ tr.preventUpdate = false) := by
  refine ⟨fun doc cnt tr h => ?_, fun tags doc cnt tr h => ?_,
    fun doc cnt tr h => ?_, fun tags doc cnt tr h => ?_⟩
  · unfold priorityOnUpdate at h
    split at h
    · exact absurd h (by simp)
    · cases h; exact ⟨rfl, rfl⟩
  · unfold customOnUpdate at h
    split at h
    · exact absurd h (by simp)
    · split at h
      · exact absurd h (by simp)
      · cases h; exact ⟨rfl, rfl⟩
  · unfold priorityOnCreate at h
    split at h
    · exact absurd h (by simp)
    · cases h; exact ⟨rfl, rfl⟩
  · unfold customOnCreate at h
    split at h
    · exact absurd h (by simp)
    · split at h
      · exact absurd h (by simp)
      · cases h; exact ⟨rfl, rfl⟩

/-- Witness for the amended C5: concrete dispatched transactions of each
hook, with the edit-pass flags set and the load-pass flags at their
defaults. -/
theorem C5_amended_meta_flags_witness :
    ((⟨[POp.removeMark 0 2, POp.addMark 0 2 ⟨['p', '1'], ['p', '1'], 7, P1_COLOR⟩],
        false, true⟩ : PTransaction).addToHistory = false ∧
      (⟨[POp.removeMark 0 2, POp.addMark 0 2 ⟨['p', '1'], ['p', '1'], 7, P1_COLOR⟩],
        false, true⟩ : PTransaction).preventUpdate = true) ∧
    ((⟨[POp.addMark 0 2 ⟨['p', '1'], ['p', '1'], 0, P1_COLOR⟩], true, false⟩ :
        PTransaction).addToHistory = true ∧
      (⟨[POp.addMark 0 2 ⟨['p', '1'], ['p', '1'], 0, P1_COLOR⟩], true, false⟩ :
        PTransaction).preventUpdate = false) := by
  constructor
  · exact C5_amended_meta_flags.1 [⟨['p', '1'], some ⟨['p', '0'], ['p', '0'], 7, P0_COLOR⟩⟩] 0
      ⟨[POp.removeMark 0 2, POp.addMark 0 2 ⟨['p', '1'], ['p', '1'], 7, P1_COLOR⟩],
        false, true⟩ (by decide)
  · exact C5_amended_meta_flags.2.2.1 [⟨['p', '1'], none⟩] 0
      ⟨[POp.addMark 0 2 ⟨['p', '1'], ['p', '1'], 0, P1_COLOR⟩], true, false⟩ (by decide)

/-! ## Identity across a payload change (C2) -/

/-- Counterexample to C2: document `"p1"` carrying one stale mark
`{priority: "p0", uid: 7}`.  The pass removes the old mark and adds a new
one at the same span, but the added mark's uid is `7` — the *same* uid as
the removed mark (`uid: existingMarkUid || nanoid()` reuses the stale
mark's uid), not a fresh one as the claim states. -/
theorem C2_counterexample :
    (priorityOnUpdate [⟨['p', '1'], some ⟨['p', '0'], ['p', '0'], 7, P0_COLOR⟩⟩] 0).1 =
      some ⟨[POp.removeMark 0 2,
             POp.addMark 0 2 ⟨['p', '1'], ['p', '1'], 7, P1_COLOR⟩], false, true⟩ := by
  decide

/-- C2 as amended: when an existing mark's payload is stale relative to
the match at its position, the pass removes the old mark and adds a new
mark at the same span — but the new mark *reuses* the removed mark's uid
(a fresh uid is drawn only when no mark of the kind overlaps the span), so
uid identity is preserved even across a payload change. -/
theorem C2_amended_replace_reuses_uid (t : List Char) (m : PMark) (r : PRange) (cnt : Nat)
    (hscan : pScanNode 0 t = [r]) (hstart : r.start = 0) (hstop : r.stop = t.length)
    (hstale : r.priority ≠ m.priority ∨ r.color ≠ m.color) :
    (priorityOnUpdate [⟨t, some m⟩] cnt).1 =
      some ⟨[POp.removeMark 0 (0 + t.length),
             POp.addMark r.start r.stop ⟨r.priority, r.priority, m.uid, r.color⟩],
        false, true⟩ := by
  have hr : r ∈ pScanNode 0 t := by rw [hscan]; exact List.mem_singleton.mpr rfl
  have hb := pScanJS_bounds t.length false 0 t r hr
  have hlen : 0 < t.length := by omega
  have hdoc : pScanDoc 0 [⟨t, some m⟩] = [r] := by
    rw [pScanDoc, pScanDoc, hscan, List.append_nil]
  have hcond : (r.start ≤ 0 && 0 + t.length ≤ r.stop) = true := by
    rw [hstart, hstop]; simp
  have hsecond : secondPass [r] 0 [⟨t, some m⟩] = [POp.removeMark 0 (0 + t.length)] := by
    rw [secondPass, secondPass]
    simp only [List.find?_cons, hcond]
    have hstale' : (r.priority ≠ m.priority || r.color ≠ m.color) = true := by
      rcases hstale with h | h <;> simp [h]
    rw [if_pos hstale']
    simp
  have hmb : marksBetween r.start r.stop 0 [⟨t, some m⟩] = [m] := by
    rw [marksBetween, marksBetween]
    have : (0 < r.stop && r.start < 0 + t.length) = true := by
      rw [hstart, hstop]; simp [hlen]
    rw [this]
    simp [Option.toList]
  have hstep : thirdPassStep r [m] = (false, some m.uid) := by
    unfold thirdPassStep
    simp only [List.foldl_cons, List.foldl_nil]
    have hfalse : (m.priority = r.priority && m.color = r.color) = false := by
      rcases hstale with h | h
      · have hne : ¬m.priority = r.priority := fun e => h e.symm
        simp [hne]
      · have hne : ¬m.color = r.color := fun e => h e.symm
        simp [hne]
    rw [hfalse]
    simp
  have hthird : thirdPass [⟨t, some m⟩] [r] cnt =
      ([POp.addMark r.start r.stop ⟨r.priority, r.priority, m.uid, r.color⟩], cnt) := by
    rw [thirdPass, hmb, hstep]
    simp [thirdPass]
  unfold priorityOnUpdate
  rw [hdoc, hsecond, hthird]
  simp

/-- Witness for the amended C2, instantiated at the counterexample's
inputs. -/
theorem C2_amended_replace_reuses_uid_witness :
    (priorityOnUpdate [⟨['p', '1'], some ⟨['p', '0'], ['p', '0'], 7, P0_COLOR⟩⟩] 3).1 =
      some ⟨[POp.removeMark 0 (0 + (['p', '1'] : List Char).length),
             POp.addMark 0 2 ⟨['p', '1'], ['p', '1'], 7, P1_COLOR⟩], false, true⟩ :=
  C2_amended_replace_reuses_uid ['p', '1'] ⟨['p', '0'], ['p', '0'], 7, P0_COLOR⟩
    ⟨0, 2, ['p', '1'], ['p', '1'], P1_COLOR⟩ 3 (by decide) rfl (by decide)
    (Or.inl (by decide))



/-! ## Task completion detection (C6) -/

theorem completedUids_self (l : List TaskRec) : completedUids l l = [] := by
  unfold completedUids
  have h : l.filter (fun t => !(l.any (fun t2 => t2.uid = t.uid))) = [] := by
    refine List.filter_eq_nil_iff.mpr ?_
    intro t ht
    have hany : l.any (fun t2 => t2.uid = t.uid) = true :=
      List.any_eq_true.mpr ⟨t, ht, by simp⟩
    simp [hany]
  rw [h, List.map_nil]

theorem refreshTasks_nil_completed (layer : Bool) (positions : List (Nat × Rect))
    (oldTasks newTasks : List TaskRec) (hne : oldTasks ≠ newTasks)
    (hc : completedUids oldTasks newTasks = []) :
    refreshTasks layer positions oldTasks newTasks = ⟨newTasks, positions, none⟩ := by
  rw [refreshTasks, if_neg hne, hc]

theorem refreshTasks_single_completed (layer : Bool) (positions : List (Nat × Rect))
    (oldTasks newTasks : List TaskRec) (a : Nat) (hne : oldTasks ≠ newTasks)
    (hc : completedUids oldTasks newTasks = [a]) :
    refreshTasks layer positions oldTasks newTasks =
      (match positions.lookup a with
       | some boundingRect =>
         if layer then
           ⟨newTasks, positions.filter (fun p => p.1 ≠ a), some boundingRect⟩
         else ⟨newTasks, positions, none⟩
       | none => ⟨newTasks, positions, none⟩) := by
  rw [refreshTasks, if_neg hne, hc]

theorem refreshTasks_multi_completed (layer : Bool) (positions : List (Nat × Rect))
    (oldTasks newTasks : List TaskRec) (a b : Nat) (l : List Nat)
    (hne : oldTasks ≠ newTasks) (hc : completedUids oldTasks newTasks = a :: b :: l) :
    refreshTasks layer positions oldTasks newTasks = ⟨newTasks, positions, none⟩ := by
  rw [refreshTasks, if_neg hne, hc]

/-- Counterexample to C6: exactly one task (uid 7) completed in the
comparison, yet no completion effect is rendered because its screen
position was never cached (`positions.current.get(id)` is `undefined`,
and the effect is spawned only under `if (effectLayer && boundingRect)`),
so "effect rendered iff exactly one task completed" fails in the
only-if-to-if direction. -/
theorem C6_counterexample :
    completedUids [⟨0, 7⟩] [] = [7] ∧
    (refreshTasks true [] [⟨0, 7⟩] []).effect = none ∧
    (refreshTasks true [] [⟨0, 7⟩] []).tasks = [] := by
  decide

/-- C6 as amended: uids in the old list but not the new are the completed
tasks; the one-shot effect is rendered (at the completed task's cached
position, whose cache entry is then evicted) iff *exactly one* task
completed *and* its position is cached *and* the effects layer exists;
with any other number of completions (or a cache/layer miss) no effect
fires; whenever the lists differ the new list becomes the baseline, so
all completed Task Records are removed even when nothing is animated. -/
theorem C6_amended_completion (layer : Bool) (positions : List (Nat × Rect))
    (oldTasks newTasks : List TaskRec) :
    (oldTasks = newTasks →
      refreshTasks layer positions oldTasks newTasks = ⟨oldTasks, positions, none⟩) ∧
    (oldTasks ≠ newTasks →
      (refreshTasks layer positions oldTasks newTasks).tasks = newTasks) ∧
    (∀ a boundingRect, completedUids oldTasks newTasks = [a] →
      positions.lookup a = some boundingRect → layer = true →
      (refreshTasks layer positions oldTasks newTasks).effect = some boundingRect ∧
      (refreshTasks layer positions oldTasks newTasks).positions =
        positions.filter (fun p => p.1 ≠ a)) ∧
    (∀ a, completedUids oldTasks newTasks = [a] → positions.lookup a = none →
      (refreshTasks layer positions oldTasks newTasks).effect = none) ∧
    ((completedUids oldTasks newTasks).length ≠ 1 →
      (refreshTasks layer positions oldTasks newTasks).effect = none) ∧
    (∀ a, completedUids oldTasks newTasks = [a] → layer = false →
      (refreshTasks layer positions oldTasks newTasks).effect = none) := by
  by_cases heq : oldTasks = newTasks
  · refine ⟨fun _ => by rw [refreshTasks, if_pos heq], fun hne => absurd heq hne,
      ?_, ?_, ?_, ?_⟩
    · intro a boundingRect hc _ _
      rw [← heq, completedUids_self] at hc
      cases hc
    · intro a hc _
      rw [refreshTasks, if_pos heq]
    · intro _
      rw [refreshTasks, if_pos heq]
    · intro a hc _
      rw [refreshTasks, if_pos heq]
  · refine ⟨fun h => absurd h heq, fun _ => ?_, ?_, ?_, ?_, ?_⟩
    · rcases hc : completedUids oldTasks newTasks with - | ⟨a, - | ⟨b, l⟩⟩
      · rw [refreshTasks_nil_completed layer positions oldTasks newTasks heq hc]
      · rw [refreshTasks_single_completed layer positions oldTasks newTasks a heq hc]
        rcases positions.lookup a with - | br
        · rfl
        · cases layer <;> rfl
      · rw [refreshTasks_multi_completed layer positions oldTasks newTasks a b l heq hc]
    · intro a boundingRect hc hl hlayer
      subst hlayer
      rw [refreshTasks_single_completed true positions oldTasks newTasks a heq hc, hl]
      exact ⟨rfl, rfl⟩
    · intro a hc hl
      rw [refreshTasks_single_completed layer positions oldTasks newTasks a heq hc, hl]
    · intro hlen
      rcases hc : completedUids oldTasks newTasks with - | ⟨a, - | ⟨b, l⟩⟩
      · rw [refreshTasks_nil_completed layer positions oldTasks newTasks heq hc]
      · rw [hc] at hlen
        simp at hlen
      · rw [refreshTasks_multi_completed layer positions oldTasks newTasks a b l heq hc]
    · intro a hc hlayer
      subst hlayer
      rw [refreshTasks_single_completed false positions oldTasks newTasks a heq hc]
      rcases positions.lookup a with - | br
      · rfl
      · rfl

/-- Witness for the amended C6: one completed task with a cached
position and a present effects layer fires the effect there and evicts
the entry; with the effects layer absent the same comparison fires
nothing; the two-completion comparison fires nothing but still drops
both records. -/
theorem C6_amended_completion_witness :
    ((refreshTasks true [(7, ⟨1, 2, 3, 4⟩)] [⟨0, 7⟩] []).effect = some ⟨1, 2, 3, 4⟩ ∧
      (refreshTasks true [(7, ⟨1, 2, 3, 4⟩)] [⟨0, 7⟩] []).positions =
        [(7, (⟨1, 2, 3, 4⟩ : Rect))].filter (fun p => p.1 ≠ 7)) ∧
    (refreshTasks false [(7, ⟨1, 2, 3, 4⟩)] [⟨0, 7⟩] []).effect = none ∧
    (refreshTasks true [] [⟨0, 7⟩, ⟨1, 8⟩] []).effect = none ∧
    (refreshTasks true [] [⟨0, 7⟩, ⟨1, 8⟩] []).tasks = [] := by
  refine ⟨?_, ?_, ?_, ?_⟩
  · exact (C6_amended_completion true [(7, ⟨1, 2, 3, 4⟩)] [⟨0, 7⟩] []).2.2.1 7 ⟨1, 2, 3, 4⟩
      (by decide) (by decide) rfl
  · exact (C6_amended_completion false [(7, ⟨1, 2, 3, 4⟩)] [⟨0, 7⟩] []).2.2.2.2.2 7
      (by decide) rfl
  · exact (C6_amended_completion true [] [⟨0, 7⟩, ⟨1, 8⟩] []).2.2.2.2.1 (by decide)
  · exact (C6_amended_completion true [] [⟨0, 7⟩, ⟨1, 8⟩] []).2.1 (by decide)

/-! ## The positional candidate view (towards C3) -/

theorem digitsPrefix_all (l : List Char) : (digitsPrefix l).all Char.isDigit :=
  List.all_takeWhile

theorem digitsPrefix_eq_take (l : List Char) :
    digitsPrefix l = l.take (digitsPrefix l).length :=
  List.prefix_iff_eq_take.mp (List.takeWhile_prefix _)

/-- Full inversion of a positional candidate. -/
theorem candAt_some {t : List Char} {k : Nat} {ds : List Char}
    (h : candAt t k = some ds) :
    ∃ c, t[k]? = some c ∧ (c = 'p' ∨ c = 'P') ∧ flagAt t k = false ∧
      ds = digitsPrefix (t.drop (k + 1)) ∧ ds ≠ [] ∧
      wordAt t (k + 1 + ds.length) = false ∧
      k + 1 + ds.length ≤ t.length := by
  unfold candAt at h
  cases hk : t[k]? with
  | none => rw [hk] at h; cases h
  | some c =>
    rw [hk] at h
    have h' : pTry (flagAt t k) c (t.drop (k + 1)) = some ds := h
    obtain ⟨hflag, hc, hds, hne⟩ := pTry_some h'
    have hlen : ds.length ≤ (t.drop (k + 1)).length := by
      rw [hds]; exact digitsPrefix_length_le _
    have hdroplen : (t.drop (k + 1)).length = t.length - (k + 1) := List.length_drop _ _
    have hklen : k < t.length := (List.getElem?_eq_some_iff.mp hk).1
    have hbound : k + 1 + ds.length ≤ t.length := by omega
    refine ⟨c, rfl, hc, hflag, hds, hne, ?_, hbound⟩
    -- the character after the digit run is not a word character
    unfold pTry at h'
    rw [hflag] at h'
    rw [if_neg (by simp)] at h'
    rw [if_pos (by rcases hc with hc | hc <;> simp [hc])] at h'
    rw [if_neg (by rw [← hds]; simpa using hne)] at h'
    have hS : (t.drop (k + 1)).drop (digitsPrefix (t.drop (k + 1))).length =
        t.drop (k + 1 + ds.length) := by
      rw [List.drop_drop, ← hds]
    rw [hS] at h'
    unfold wordAt
    cases hd : t[k + 1 + ds.length]? with
    | none => rfl
    | some d =>
      obtain ⟨hlt, hget⟩ := List.getElem?_eq_some_iff.mp hd
      have hcons : t.drop (k + 1 + ds.length) =
          d :: t.drop (k + 1 + ds.length + 1) := by
        rw [List.drop_eq_getElem_cons hlt, hget]
      rw [hcons] at h'
      have h'' : (if isWordChar d = true then (none : Option (List Char))
          else some (digitsPrefix (t.drop (k + 1)))) = some ds := h'
      show isWordChar d = false
      cases hw : isWordChar d
      · rfl
      · rw [hw] at h''
        simp at h''

theorem candAt_eq_pTry {t : List Char} {k : Nat} (h : k < t.length) :
    candAt t k = pTry (flagAt t k) (t.get ⟨k, h⟩) (t.drop (k + 1)) := by
  unfold candAt
  rw [List.getElem?_eq_getElem h]
  rfl

theorem drop_cons_of_lt {t : List Char} {k : Nat} (h : k < t.length) :
    t.drop k = t.get ⟨k, h⟩ :: t.drop (k + 1) :=
  List.drop_eq_getElem_cons h

/-- The last character of the digit run of a candidate is a digit, so the
scanner's flag is `true` when it resumes right after a match. -/
theorem flagAt_after_run {t : List Char} {k : Nat} {ds : List Char}
    (hds : ds = digitsPrefix (t.drop (k + 1))) (hne : ds ≠ []) :
    flagAt t (k + 1 + ds.length) = true := by
  have hlenpos : 0 < ds.length := List.length_pos.mpr hne
  have htake : ds = (t.drop (k + 1)).take ds.length := by
    conv_lhs => rw [hds, digitsPrefix_eq_take, ← hds]
  obtain ⟨d, hd⟩ : ∃ d, ds[ds.length - 1]? = some d :=
    ⟨ds.get ⟨ds.length - 1, by omega⟩, by
      rw [List.getElem?_eq_getElem (by omega)]
      rfl⟩
  have e1 : ds[ds.length - 1]? = (t.drop (k + 1))[ds.length - 1]? := by
    have h := @List.getElem?_take_of_lt Char (t.drop (k + 1)) ds.length (ds.length - 1)
      (by omega)
    rw [← htake] at h
    exact h
  have e2 : (t.drop (k + 1))[ds.length - 1]? = t[k + ds.length]? := by
    rw [List.getElem?_drop]
    congr 1
    omega
  have hd' : t[k + ds.length]? = some d := by rw [← e2, ← e1, hd]
  have hdig : d.isDigit = true := by
    have hall := digitsPrefix_all (t.drop (k + 1))
    rw [← hds] at hall
    exact List.all_eq_true.mp hall d (List.getElem?_mem hd)
  unfold flagAt
  rw [if_neg (by omega)]
  unfold wordAt
  rw [show k + 1 + ds.length - 1 = k + ds.length by omega, hd']
  show isWordChar d = true
  simp [isWordChar, Char.isAlphanum, hdig]

/-- The sequential JS scan agrees with the positional candidate view. -/
theorem pScanJS_eq_candList (t : List Char) (i : Nat) :
    ∀ fuel k, t.length - k ≤ fuel →
      pScanJS fuel (flagAt t k) (i + k) (t.drop k) = candList t i k := by
  intro fuel
  induction fuel with
  | zero =>
    intro k hk
    rw [List.drop_eq_nil_of_le (by omega), candList, dif_neg (by omega)]
    rfl
  | succ fuel ih =>
    intro k hk
    by_cases hlt : k < t.length
    · rw [drop_cons_of_lt hlt, pScanJS, candList, dif_pos hlt]
      have hpc := candAt_eq_pTry hlt
      cases hcand : candAt t k with
      | some ds =>
        have hcand' : pTry (flagAt t k) (t.get ⟨k, hlt⟩) (t.drop (k + 1)) = some ds := by
          rw [← hpc]; exact hcand
        simp only [hcand, hcand']
        obtain ⟨c, -, -, -, hds, hne, -, hbound⟩ := candAt_some hcand
        have hflagnext : flagAt t (k + 1 + ds.length) = true := flagAt_after_run hds hne
        have hdrop2 : (t.drop (k + 1)).drop ds.length = t.drop (k + 1 + ds.length) := by
          rw [List.drop_drop]
        rw [hdrop2, ← hflagnext,
          show i + k + 1 + ds.length = i + (k + 1 + ds.length) by omega]
        exact congrArg (List.cons _) (ih (k + 1 + ds.length) (by omega))
      | none =>
        have hcand' : pTry (flagAt t k) (t.get ⟨k, hlt⟩) (t.drop (k + 1)) = none := by
          rw [← hpc]; exact hcand
        simp only [hcand, hcand']
        have hflagnext : flagAt t (k + 1) = isWordChar (t.get ⟨k, hlt⟩) := by
          unfold flagAt wordAt
          rw [if_neg (by omega), show k + 1 - 1 = k by omega,
            List.getElem?_eq_getElem hlt]
          rfl
        rw [← hflagnext, show i + k + 1 = i + (k + 1) by omega]
        exact ih (k + 1) (by omega)
    · rw [List.drop_eq_nil_of_le (by omega), candList, dif_neg hlt]
      rfl

/-- The node scan in positional form. -/
theorem pScanNode_eq_candList (i : Nat) (t : List Char) :
    pScanNode i t = candList t i 0 := by
  have h := pScanJS_eq_candList t i t.length 0 (by omega)
  simpa [pScanNode, flagAt] using h

theorem candAt_none_of_ge {t : List Char} {j : Nat} (h : t.length ≤ j) :
    candAt t j = none := by
  unfold candAt
  rw [List.getElem?_eq_none h]

theorem candList_nil_sound (t : List Char) (i : Nat) :
    ∀ fuel k, t.length - k ≤ fuel → candList t i k = [] →
      ∀ j, k ≤ j → candAt t j = none := by
  intro fuel
  induction fuel with
  | zero =>
    intro k hk _ j hj
    exact candAt_none_of_ge (by omega)
  | succ fuel ih =>
    intro k hk hnil j hj
    by_cases hlt : k < t.length
    · rw [candList, dif_pos hlt] at hnil
      cases hcand : candAt t k with
      | some ds => rw [hcand] at hnil; cases hnil
      | none =>
        rw [hcand] at hnil
        rcases Nat.eq_or_lt_of_le hj with h | h
        · rw [← h]; exact hcand
        · exact ih (k + 1) (by omega) hnil j (by omega)
    · exact candAt_none_of_ge (by omega)

theorem candList_cons_sound (t : List Char) (i : Nat) :
    ∀ fuel k r rs, t.length - k ≤ fuel → candList t i k = r :: rs →
      ∃ k2 ds, ∃ hlt : k2 < t.length, k ≤ k2 ∧ candAt t k2 = some ds ∧
        r = mkPRange (i + k2) (t.get ⟨k2, hlt⟩) ds ∧
        (∀ j, k ≤ j → j < k2 → candAt t j = none) ∧
        rs = candList t i (k2 + 1 + ds.length) := by
  intro fuel
  induction fuel with
  | zero =>
    intro k r rs hk hcons
    rw [candList, dif_neg (by omega)] at hcons
    cases hcons
  | succ fuel ih =>
    intro k r rs hk hcons
    by_cases hlt : k < t.length
    · rw [candList, dif_pos hlt] at hcons
      cases hcand : candAt t k with
      | some ds =>
        rw [hcand] at hcons
        obtain ⟨h1, h2⟩ := List.cons.inj hcons
        exact ⟨k, ds, hlt, le_refl k, hcand, h1.symm, fun j ha hb => by omega, h2.symm⟩
      | none =>
        rw [hcand] at hcons
        obtain ⟨k2, ds, hlt2, hk2, hc2, hr, hgap, hrs⟩ := ih (k + 1) r rs (by omega) hcons
        refine ⟨k2, ds, hlt2, by omega, hc2, hr, ?_, hrs⟩
        intro j hj1 hj2
        rcases Nat.eq_or_lt_of_le hj1 with h | h
        · rw [← h]; exact hcand
        · exact hgap j (by omega) hj2
    · rw [candList, dif_neg hlt] at hcons
      cases hcons

/-- Introduction rule for a positional candidate. -/
theorem candAt_intro {t : List Char} {k : Nat} {c : Char}
    (hk : t[k]? = some c) (hc : c = 'p' ∨ c = 'P') (hflag : flagAt t k = false)
    (hne : digitsPrefix (t.drop (k + 1)) ≠ [])
    (hword : wordAt t (k + 1 + (digitsPrefix (t.drop (k + 1))).length) = false) :
    candAt t k = some (digitsPrefix (t.drop (k + 1))) := by
  unfold candAt
  rw [hk]
  show pTry (flagAt t k) c (t.drop (k + 1)) = _
  unfold pTry
  rw [hflag, if_neg (by simp), if_pos (by rcases hc with hc | hc <;> simp [hc]),
    if_neg (by simpa using hne)]
  have hS : (t.drop (k + 1)).drop (digitsPrefix (t.drop (k + 1))).length =
      t.drop (k + 1 + (digitsPrefix (t.drop (k + 1))).length) := by
    rw [List.drop_drop]
  rw [hS]
  cases hd : t.drop (k + 1 + (digitsPrefix (t.drop (k + 1))).length) with
  | nil => rfl
  | cons d rest =>
    have hd' : t[k + 1 + (digitsPrefix (t.drop (k + 1))).length]? = some d := by
      have := List.getElem?_drop t (k + 1 + (digitsPrefix (t.drop (k + 1))).length) 0
      rw [hd] at this
      simpa using this.symm
    unfold wordAt at hword
    rw [hd'] at hword
    have hw : isWordChar d = false := by simpa using hword
    show (if isWordChar d = true then none
        else some (digitsPrefix (t.drop (k + 1)))) = some (digitsPrefix (t.drop (k + 1)))
    rw [if_neg (by simp [hw])]

/-- Transfer of `wordAt` from a slice to the whole text. -/
theorem wordAt_slice (t : List Char) (gs ge m : Nat) (_hge : ge ≤ t.length)
    (hm : m < ge - gs) :
    wordAt ((t.drop gs).take (ge - gs)) m = wordAt t (gs + m) := by
  unfold wordAt
  rw [List.getElem?_take_of_lt hm, List.getElem?_drop]

/-- A slice of `t` lying strictly between (or around) the accepted
matches contains no candidate of its own: candidates cannot be created by
cutting at match boundaries. -/
theorem gap_candAt_none (t : List Char) (gs ge : Nat) (hge : ge ≤ t.length)
    (hF1 : ∀ j, gs ≤ j → j < ge → candAt t j = none)
    (hF2 : gs = 0 ∨ wordAt t gs = false)
    (hF3 : ge = t.length ∨ wordAt t (ge - 1) = false) :
    ∀ j, candAt ((t.drop gs).take (ge - gs)) j = none := by
  intro j
  cases hc : candAt ((t.drop gs).take (ge - gs)) j with
  | none => rfl
  | some ds =>
    exfalso
    obtain ⟨c, hgj, hcp, hflagg, hds, hne, hwordg, hboundg⟩ := candAt_some hc
    have hglen : ((t.drop gs).take (ge - gs)).length = ge - gs := by
      rw [List.length_take, List.length_drop]
      omega
    have hidx : ∀ m, m < ge - gs → ((t.drop gs).take (ge - gs))[m]? = t[gs + m]? := by
      intro m hm
      rw [List.getElem?_take_of_lt hm, List.getElem?_drop]
    have hjlt : j < ge - gs := by
      have := (List.getElem?_eq_some_iff.mp hgj).1
      omega
    have htgj : t[gs + j]? = some c := by rw [← hidx j hjlt]; exact hgj
    have hcw : isWordChar c = true := by rcases hcp with h | h <;> subst h <;> decide
    -- the flag transfers (the `j = 0, gs ≠ 0` case is impossible outright)
    have hflagt : flagAt t (gs + j) = false := by
      by_cases hj0 : j = 0
      · subst hj0
        rcases hF2 with h0 | hword
        · subst h0; rfl
        · exfalso
          unfold wordAt at hword
          rw [show gs + 0 = gs by omega] at htgj
          rw [htgj] at hword
          simp [hcw] at hword
      · have hj1 : 1 ≤ j := by omega
        unfold flagAt at hflagg ⊢
        rw [if_neg (by omega)] at hflagg
        rw [if_neg (by omega)]
        rw [show gs + j - 1 = gs + (j - 1) by omega]
        rw [← wordAt_slice t gs ge (j - 1) hge (by omega)]
        exact hflagg
    -- the digit run of the slice is a truncation of the digit run of `t`
    have hdropg : ((t.drop gs).take (ge - gs)).drop (j + 1) =
        (t.drop (gs + (j + 1))).take (ge - gs - (j + 1)) := by
      rw [List.drop_take, List.drop_drop]
    have hdsT : ds = (digitsPrefix (t.drop (gs + (j + 1)))).take (ge - gs - (j + 1)) := by
      rw [hds, hdropg]
      unfold digitsPrefix
      rw [← List.take_takeWhile]
    have hlen_ds : ds.length ≤ (ge - gs) - (j + 1) := by
      rw [hdsT, List.length_take]
      omega
    -- the run of the slice ending at the slice's end forces `ge = t.length`
    have hend_case : j + 1 + ds.length = ge - gs → ge = t.length := by
      intro hend
      rcases hF3 with h | hword
      · exact h
      · exfalso
        have hlast : flagAt ((t.drop gs).take (ge - gs)) (j + 1 + ds.length) = true :=
          flagAt_after_run hds hne
        unfold flagAt at hlast
        rw [if_neg (by omega)] at hlast
        rw [show j + 1 + ds.length - 1 = j + ds.length by omega] at hlast
        rw [wordAt_slice t gs ge (j + ds.length) hge (by omega)] at hlast
        rw [show gs + (j + ds.length) = ge - 1 by omega] at hlast
        rw [hword] at hlast
        cases hlast
    by_cases hcase : (digitsPrefix (t.drop (gs + (j + 1)))).length ≤ ge - gs - (j + 1)
    · -- the runs agree; build a candidate of `t` inside the gap
      have hds_eq : ds = digitsPrefix (t.drop (gs + (j + 1))) := by
        rw [hdsT, List.take_of_length_le hcase]
      have hneT : digitsPrefix (t.drop (gs + (j + 1))) ≠ [] := by
        rw [← hds_eq]; exact hne
      have hwordT : wordAt t (gs + (j + 1) +
          (digitsPrefix (t.drop (gs + (j + 1)))).length) = false := by
        rw [← hds_eq]
        by_cases hend : j + 1 + ds.length = ge - gs
        · have hge' : ge = t.length := hend_case hend
          unfold wordAt
          rw [List.getElem?_eq_none (by omega)]
        · rw [show gs + (j + 1) + ds.length = gs + (j + 1 + ds.length) by omega]
          rw [← wordAt_slice t gs ge (j + 1 + ds.length) hge (by omega)]
          exact hwordg
      have hcand := @candAt_intro t (gs + j) c htgj hcp hflagt
        (by rw [show gs + j + 1 = gs + (j + 1) by omega]; exact hneT)
        (by rw [show gs + j + 1 = gs + (j + 1) by omega]; exact hwordT)
      rw [hF1 (gs + j) (by omega) (by omega)] at hcand
      cases hcand
    · -- the run would have to cross the slice's right cut: impossible
      have hlen' : ds.length = ge - gs - (j + 1) := by
        rw [hdsT, List.length_take]
        omega
      have hend : j + 1 + ds.length = ge - gs := by omega
      have hge' : ge = t.length := hend_case hend
      have : (digitsPrefix (t.drop (gs + (j + 1)))).length ≤
          (t.drop (gs + (j + 1))).length := digitsPrefix_length_le _
      rw [List.length_drop] at this
      omega

theorem pScanJS_nil (fuel : Nat) (b : Bool) (i : Nat) : pScanJS fuel b i [] = [] := by
  cases fuel <;> rfl

theorem digitsPrefix_of_all {ds : List Char} (h : ds.all Char.isDigit = true) :
    digitsPrefix ds = ds := by
  induction ds with
  | nil => rfl
  | cons d ds ih =>
    rw [List.all_cons, Bool.and_eq_true] at h
    unfold digitsPrefix at ih ⊢
    rw [List.takeWhile_cons_of_pos h.1, ih h.2]

/-- Scanning a lone token `p<digits>` yields exactly its own match. -/
theorem pScanNode_token (a : Nat) (c : Char) (ds : List Char)
    (hc : c = 'p' ∨ c = 'P') (hne : ds ≠ []) (hall : ds.all Char.isDigit = true) :
    pScanNode a (c :: ds) = [mkPRange a c ds] := by
  unfold pScanNode
  rw [show (c :: ds).length = ds.length + 1 from rfl, pScanJS]
  have hTry : pTry false c ds = some ds := by
    unfold pTry
    rw [if_neg (by simp), if_pos (by rcases hc with hc | hc <;> simp [hc]),
      digitsPrefix_of_all hall, if_neg (by simpa using hne), List.drop_length]
  rw [hTry]
  show mkPRange a c ds :: pScanJS ds.length true (a + 1 + ds.length) (ds.drop ds.length) =
    [mkPRange a c ds]
  rw [List.drop_length, pScanJS_nil]

theorem candList_nil_of_no_cand (g : List Char) (a : Nat)
    (h : ∀ j, candAt g j = none) :
    ∀ fuel k, g.length - k ≤ fuel → candList g a k = [] := by
  intro fuel
  induction fuel with
  | zero =>
    intro k hk
    rw [candList, dif_neg (by omega)]
  | succ fuel ih =>
    intro k hk
    by_cases hlt : k < g.length
    · rw [candList, dif_pos hlt, h k]
      exact ih (k + 1) (by omega)
    · rw [candList, dif_neg hlt]

/-- Scanning a gap slice yields no match at all. -/
theorem gap_scanNode_nil (t : List Char) (gs ge a : Nat) (hge : ge ≤ t.length)
    (hF1 : ∀ j, gs ≤ j → j < ge → candAt t j = none)
    (hF2 : gs = 0 ∨ wordAt t gs = false)
    (hF3 : ge = t.length ∨ wordAt t (ge - 1) = false) :
    pScanNode a ((t.drop gs).take (ge - gs)) = [] := by
  rw [pScanNode_eq_candList]
  exact candList_nil_of_no_cand _ a (gap_candAt_none t gs ge hge hF1 hF2 hF3)
    ((t.drop gs).take (ge - gs)).length 0 (by omega)

/-- Scanning the canonical fragmentation of a node reproduces exactly the
node's own matches: fragmenting at match boundaries neither destroys nor
creates matches. -/
theorem scan_fragmentNode (t : List Char) (i : Nat) :
    ∀ rs k cnt, rs = candList t i k → k ≤ t.length →
      (k = 0 ∨ wordAt t k = false) →
      pScanDoc (i + k) (fragmentNode (i + k) (t.drop k) rs cnt) = rs := by
  intro rs
  induction rs with
  | nil =>
    intro k cnt hrs hk hcut
    rw [fragmentNode]
    by_cases hempty : (t.drop k).isEmpty
    · rw [if_pos hempty]
      rfl
    · rw [if_neg hempty]
      have hgap : pScanNode (i + k) (t.drop k) = [] := by
        have htake : (t.drop k).take (t.length - k) = t.drop k :=
          List.take_of_length_le (by rw [List.length_drop])
        rw [← htake]
        exact gap_scanNode_nil t k t.length (i + k) (le_refl _)
          (fun j h1 _ => candList_nil_sound t i t.length k (by omega) hrs.symm j h1)
          hcut (Or.inl rfl)
      rw [pScanDoc, hgap, pScanDoc]
      rfl
  | cons r rs' ih =>
    intro k cnt hrs hk hcut
    obtain ⟨k2, ds, hlt, hk2, hcand, hr, hgapfree, hrs'⟩ :=
      candList_cons_sound t i (t.length - k) k r rs' (by omega) hrs.symm
    obtain ⟨c, htk2, hcp, hflag2, hds, hne, hword, hbound⟩ := candAt_some hcand
    have hget : t.get ⟨k2, hlt⟩ = c := by
      have h := List.getElem?_eq_getElem hlt
      rw [htk2] at h
      exact (Option.some.inj h).symm
    have hall : ds.all Char.isDigit = true := by
      rw [hds]; exact digitsPrefix_all _
    have hdstake : ds = (t.drop (k2 + 1)).take ds.length := by
      conv_lhs => rw [hds, digitsPrefix_eq_take, ← hds]
    have hrstart : r.start = i + k2 := by rw [hr]; rfl
    have hrstop : r.stop = i + k2 + 1 + ds.length := by rw [hr]; rfl
    have hreq : r = mkPRange (i + k2) c ds := by rw [hr, hget]
    -- the token fragment is the literal token text
    have htok : ((t.drop k).drop (r.start - (i + k))).take (r.stop - r.start) =
        c :: ds := by
      rw [hrstart, hrstop,
        show i + k2 - (i + k) = k2 - k by omega,
        show i + k2 + 1 + ds.length - (i + k2) = ds.length + 1 by omega,
        List.drop_drop,
        show k + (k2 - k) = k2 by omega,
        drop_cons_of_lt hlt, hget, List.take_succ_cons, ← hdstake]
    -- the remainder of the node aligns with the continuation position
    have hrest : (t.drop k).drop (r.stop - (i + k)) = t.drop (k2 + 1 + ds.length) := by
      rw [hrstop, show i + k2 + 1 + ds.length - (i + k) = k2 + 1 + ds.length - k by omega,
        List.drop_drop, show k + (k2 + 1 + ds.length - k) = k2 + 1 + ds.length by omega]
    have hrstop' : r.stop = i + (k2 + 1 + ds.length) := by omega
    have hihrest : pScanDoc (i + (k2 + 1 + ds.length))
        (fragmentNode (i + (k2 + 1 + ds.length)) (t.drop (k2 + 1 + ds.length)) rs'
          (cnt + 1)) = rs' :=
      ih (k2 + 1 + ds.length) (cnt + 1) hrs' (by omega) (Or.inr hword)
    have htokscan : pScanNode (i + k2) (c :: ds) = [r] := by
      rw [pScanNode_token (i + k2) c ds hcp hne hall, hreq]
    rw [fragmentNode]
    by_cases hksplit : k2 = k
    · subst hksplit
      rw [if_pos (by rw [hrstart])]
      rw [List.nil_append, pScanDoc, htok, htokscan]
      rw [show i + k2 + (c :: ds).length = i + (k2 + 1 + ds.length) by
        simp only [List.length_cons]; omega]
      rw [hrest]
      rw [show r.stop = i + (k2 + 1 + ds.length) from hrstop']
      rw [hihrest]
      rfl
    · rw [if_neg (by rw [hrstart]; omega)]
      have hgapscan : pScanNode (i + k) ((t.drop k).take (r.start - (i + k))) = [] := by
        rw [hrstart, show i + k2 - (i + k) = k2 - k by omega]
        exact gap_scanNode_nil t k k2 (i + k) (by omega)
          (fun j h1 h2 => hgapfree j h1 h2) hcut
          (Or.inr (by
            have hk2pos : k2 ≠ 0 := by omega
            unfold flagAt at hflag2
            rw [if_neg hk2pos] at hflag2
            exact hflag2))
      have hgaplen : ((t.drop k).take (r.start - (i + k))).length = k2 - k := by
        rw [hrstart, show i + k2 - (i + k) = k2 - k by omega,
          List.length_take, List.length_drop]
        omega
      rw [List.cons_append, List.nil_append, pScanDoc, hgapscan, List.nil_append]
      rw [hgaplen, pScanDoc, htok]
      rw [show i + k + (k2 - k) = i + k2 by omega, htokscan]
      rw [show i + k2 + (c :: ds).length = i + (k2 + 1 + ds.length) by
        simp only [List.length_cons]; omega]
      rw [hrest]
      rw [show r.stop = i + (k2 + 1 + ds.length) from hrstop']
      rw [hihrest]
      rfl

/-! ## Applying the add-only transaction of a mark-free pass (towards C3) -/

theorem splitAdd_docLen (s e : Nat) (m : PMark) (i : Nat) (n : PNode) :
    docLen (splitAdd s e m i n) = n.text.length := by
  simp only [splitAdd, docLen]
  split
  · next hlt =>
    have h1 : i ≤ max s i := le_max_right s i
    have h2 : min e (i + n.text.length) ≤ i + n.text.length := min_le_right _ _
    by_cases hlo : max s i = i <;> by_cases hhi : min e (i + n.text.length) = i + n.text.length <;>
      (simp [hlo, hhi]; try omega)
  · simp

theorem splitRemove_docLen (s e : Nat) (i : Nat) (n : PNode) :
    docLen (splitRemove s e i n) = n.text.length := by
  simp only [splitRemove, docLen]
  split
  · next hlt =>
    have h1 : i ≤ max s i := le_max_right s i
    have h2 : min e (i + n.text.length) ≤ i + n.text.length := min_le_right _ _
    by_cases hlo : max s i = i <;> by_cases hhi : min e (i + n.text.length) = i + n.text.length <;>
      (simp [hlo, hhi]; try omega)
  · simp

theorem applyOp_docLen (op : POp) : ∀ i doc, docLen (applyOp i op doc) = docLen doc := by
  intro i doc
  induction doc generalizing i with
  | nil => cases op <;> rfl
  | cons n doc ih =>
    cases op with
    | addMark s e m =>
      show docLen (splitAdd s e m i n ++ applyOp (i + n.text.length) (POp.addMark s e m) doc) = _
      have happ : ∀ A B : List PNode, docLen (A ++ B) = docLen A + docLen B := by
        intro A B
        simp [docLen]
      rw [happ, splitAdd_docLen, ih (i + n.text.length)]
      simp [docLen]
    | removeMark s e =>
      show docLen (splitRemove s e i n ++ applyOp (i + n.text.length) (POp.removeMark s e) doc) = _
      have happ : ∀ A B : List PNode, docLen (A ++ B) = docLen A + docLen B := by
        intro A B
        simp [docLen]
      rw [happ, splitRemove_docLen, ih (i + n.text.length)]
      simp [docLen]

theorem docLen_append (A B : List PNode) : docLen (A ++ B) = docLen A + docLen B := by
  simp [docLen]

theorem applyOp_append (op : POp) :
    ∀ A B i, applyOp i op (A ++ B) = applyOp i op A ++ applyOp (i + docLen A) op B := by
  intro A
  induction A with
  | nil =>
    intro B i
    cases op <;> simp [applyOp, docLen]
  | cons n A ih =>
    intro B i
    cases op with
    | addMark s e m =>
      show splitAdd s e m i n ++ applyOp (i + n.text.length) (POp.addMark s e m) (A ++ B) = _
      rw [ih B (i + n.text.length)]
      show _ = (splitAdd s e m i n ++ applyOp (i + n.text.length) (POp.addMark s e m) A)
        ++ applyOp (i + docLen (n :: A)) (POp.addMark s e m) B
      rw [List.append_assoc]
      have hlen : docLen (n :: A) = n.text.length + docLen A := by simp [docLen]
      rw [hlen, show i + (n.text.length + docLen A) = i + n.text.length + docLen A by omega]
    | removeMark s e =>
      show splitRemove s e i n ++ applyOp (i + n.text.length) (POp.removeMark s e) (A ++ B) = _
      rw [ih B (i + n.text.length)]
      show _ = (splitRemove s e i n ++ applyOp (i + n.text.length) (POp.removeMark s e) A)
        ++ applyOp (i + docLen (n :: A)) (POp.removeMark s e) B
      rw [List.append_assoc]
      have hlen : docLen (n :: A) = n.text.length + docLen A := by simp [docLen]
      rw [hlen, show i + (n.text.length + docLen A) = i + n.text.length + docLen A by omega]

theorem splitAdd_of_stop_le (s e : Nat) (m : PMark) (i : Nat) (n : PNode) (h : e ≤ i) :
    splitAdd s e m i n = [n] := by
  unfold splitAdd
  have hne : ¬ max s i < min e (i + n.text.length) := by
    have h1 : min e (i + n.text.length) ≤ e := min_le_left _ _
    have h2 : i ≤ max s i := le_max_right s i
    omega
  rw [if_neg hne]

theorem splitAdd_of_start_ge (s e : Nat) (m : PMark) (i : Nat) (n : PNode)
    (h : i + n.text.length ≤ s) : splitAdd s e m i n = [n] := by
  unfold splitAdd
  have hne : ¬ max s i < min e (i + n.text.length) := by
    have h1 : min e (i + n.text.length) ≤ i + n.text.length := min_le_right _ _
    have h2 : s ≤ max s i := le_max_left s i
    omega
  rw [if_neg hne]

theorem splitRemove_of_stop_le (s e : Nat) (i : Nat) (n : PNode) (h : e ≤ i) :
    splitRemove s e i n = [n] := by
  unfold splitRemove
  have hne : ¬ max s i < min e (i + n.text.length) := by
    have h1 : min e (i + n.text.length) ≤ e := min_le_left _ _
    have h2 : i ≤ max s i := le_max_right s i
    omega
  rw [if_neg hne]

theorem splitRemove_of_start_ge (s e : Nat) (i : Nat) (n : PNode)
    (h : i + n.text.length ≤ s) : splitRemove s e i n = [n] := by
  unfold splitRemove
  have hne : ¬ max s i < min e (i + n.text.length) := by
    have h1 : min e (i + n.text.length) ≤ i + n.text.length := min_le_right _ _
    have h2 : s ≤ max s i := le_max_left s i
    omega
  rw [if_neg hne]

theorem applyOp_of_stop_le (op : POp) :
    ∀ doc i, opStop op ≤ i → applyOp i op doc = doc := by
  intro doc
  induction doc with
  | nil => intro i _; cases op <;> rfl
  | cons n doc ih =>
    intro i h
    cases op with
    | addMark s e m =>
      show splitAdd s e m i n ++ applyOp (i + n.text.length) (POp.addMark s e m) doc = _
      rw [splitAdd_of_stop_le s e m i n h, ih (i + n.text.length) (by simp only [opStop] at h ⊢; omega)]
      rfl
    | removeMark s e =>
      show splitRemove s e i n ++ applyOp (i + n.text.length) (POp.removeMark s e) doc = _
      rw [splitRemove_of_stop_le s e i n h, ih (i + n.text.length) (by simp only [opStop] at h ⊢; omega)]
      rfl

theorem applyOp_of_start_ge (op : POp) :
    ∀ doc i, i + docLen doc ≤ opStart op → applyOp i op doc = doc := by
  intro doc
  induction doc with
  | nil => intro i _; cases op <;> rfl
  | cons n doc ih =>
    intro i h
    have hlen : docLen (n :: doc) = n.text.length + docLen doc := by simp [docLen]
    cases op with
    | addMark s e m =>
      show splitAdd s e m i n ++ applyOp (i + n.text.length) (POp.addMark s e m) doc = _
      rw [splitAdd_of_start_ge s e m i n (by simp only [opStart] at h; omega),
        ih (i + n.text.length) (by simp only [opStart] at h ⊢; omega)]
      rfl
    | removeMark s e =>
      show splitRemove s e i n ++ applyOp (i + n.text.length) (POp.removeMark s e) doc = _
      rw [splitRemove_of_start_ge s e i n (by simp only [opStart] at h; omega),
        ih (i + n.text.length) (by simp only [opStart] at h ⊢; omega)]
      rfl

theorem applyOpsAt_nil_doc (ops : List POp) : ∀ i, applyOpsAt i [] ops = [] := by
  induction ops with
  | nil => intro i; rfl
  | cons op ops ih =>
    intro i
    show applyOpsAt i (applyOp i op []) ops = []
    have : applyOp i op [] = [] := by cases op <;> rfl
    rw [this, ih i]

theorem applyOpsAt_append_ops (xs ys : List POp) :
    ∀ doc i, applyOpsAt i doc (xs ++ ys) = applyOpsAt i (applyOpsAt i doc xs) ys := by
  induction xs with
  | nil => intro doc i; rfl
  | cons op xs ih =>
    intro doc i
    show applyOpsAt i (applyOp i op doc) (xs ++ ys) = _
    rw [ih (applyOp i op doc) i]
    rfl

theorem applyOpsAt_docLen (ops : List POp) :
    ∀ doc i, docLen (applyOpsAt i doc ops) = docLen doc := by
  induction ops with
  | nil => intro doc i; rfl
  | cons op ops ih =>
    intro doc i
    show docLen (applyOpsAt i (applyOp i op doc) ops) = _
    rw [ih (applyOp i op doc) i, applyOp_docLen]

theorem applyOpsAt_append_high (ops : List POp) :
    ∀ A B i, (∀ op ∈ ops, i + docLen A ≤ opStart op) →
      applyOpsAt i (A ++ B) ops = A ++ applyOpsAt (i + docLen A) B ops := by
  induction ops with
  | nil => intro A B i _; rfl
  | cons op ops ih =>
    intro A B i h
    show applyOpsAt i (applyOp i op (A ++ B)) ops = _
    rw [applyOp_append, applyOp_of_start_ge op A i
      (le_trans (Nat.le_refl _) (h op (List.mem_cons_self op ops)))]
    rw [ih A (applyOp (i + docLen A) op B) i
      (fun o ho => h o (List.mem_cons_of_mem op ho))]
    rfl

theorem applyOpsAt_append_low (ops : List POp) :
    ∀ A B i, (∀ op ∈ ops, opStop op ≤ i + docLen A) →
      applyOpsAt i (A ++ B) ops = applyOpsAt i A ops ++ B := by
  induction ops with
  | nil => intro A B i _; rfl
  | cons op ops ih =>
    intro A B i h
    show applyOpsAt i (applyOp i op (A ++ B)) ops = _
    rw [applyOp_append, applyOp_of_stop_le op B (i + docLen A)
      (h op (List.mem_cons_self op ops))]
    rw [ih (applyOp i op A) B i
      (fun o ho => by rw [applyOp_docLen]; exact h o (List.mem_cons_of_mem op ho))]
    rfl

theorem fragmentNode_docLen :
    ∀ rs i t cnt, (∀ r ∈ rs, i ≤ r.start ∧ r.start < r.stop ∧ r.stop ≤ i + t.length) →
      rs.Pairwise (fun a b => a.stop ≤ b.start) →
      docLen (fragmentNode i t rs cnt) = t.length := by
  intro rs
  induction rs with
  | nil =>
    intro i t cnt _ _
    show docLen (if t.isEmpty then [] else [⟨t, none⟩]) = t.length
    by_cases h : t.isEmpty
    · rw [if_pos h]
      simp [docLen, List.isEmpty_iff.mp h]
    · rw [if_neg h]
      simp [docLen]
  | cons r rs ih =>
    intro i t cnt hb hp
    have hr := hb r (List.mem_cons_self r rs)
    have hdef : fragmentNode i t (r :: rs) cnt =
        (if r.start = i then [] else [⟨t.take (r.start - i), none⟩])
          ++ ⟨(t.drop (r.start - i)).take (r.stop - r.start),
              some ⟨r.priority, r.priority, cnt, r.color⟩⟩
          :: fragmentNode r.stop (t.drop (r.stop - i)) rs (cnt + 1) := rfl
    rw [hdef]
    have hafter : ∀ x ∈ rs, r.stop ≤ x.start := fun x hx =>
      (List.pairwise_cons.mp hp).1 x hx
    have hrec : docLen (fragmentNode r.stop (t.drop (r.stop - i)) rs (cnt + 1)) =
        (t.drop (r.stop - i)).length := by
      refine ih r.stop (t.drop (r.stop - i)) (cnt + 1) (fun x hx => ?_)
        (List.pairwise_cons.mp hp).2
      have hx1 := hb x (List.mem_cons_of_mem r hx)
      have hx2 := hafter x hx
      rw [List.length_drop]
      omega
    have hrec' : (List.map (fun n => n.text.length)
        (fragmentNode r.stop (t.drop (r.stop - i)) rs (cnt + 1))).sum
        = t.length - (r.stop - i) := by
      have h0 := hrec
      simp only [docLen, List.length_drop] at h0
      exact h0
    by_cases hz : r.start = i
    · rw [if_pos hz]
      simp only [docLen, List.nil_append, List.map_cons, List.sum_cons, List.length_take,
        List.length_drop]
      rw [hrec']
      omega
    · rw [if_neg hz]
      simp only [docLen, List.map_append, List.map_cons, List.map_nil, List.sum_append,
        List.sum_cons, List.sum_nil, List.length_take, List.length_drop]
      rw [hrec']
      omega

theorem addsOf_cnt : ∀ rs cnt, (addsOf rs cnt).2 = cnt + rs.length := by
  intro rs
  induction rs with
  | nil => intro cnt; rfl
  | cons r rs ih =>
    intro cnt
    show (addsOf rs (cnt + 1)).2 = _
    rw [ih (cnt + 1)]
    simp only [List.length_cons]
    omega

theorem addsOf_append :
    ∀ A B cnt, (addsOf (A ++ B) cnt).1 = (addsOf A cnt).1 ++ (addsOf B (cnt + A.length)).1 := by
  intro A
  induction A with
  | nil => intro B cnt; rfl
  | cons r A ih =>
    intro B cnt
    show POp.addMark r.start r.stop ⟨r.priority, r.priority, cnt, r.color⟩
        :: (addsOf (A ++ B) (cnt + 1)).1 = _
    rw [ih B (cnt + 1)]
    simp only [List.length_cons, addsOf, List.cons_append]
    rw [show cnt + 1 + A.length = cnt + (A.length + 1) by omega]

theorem addsOf_mem :
    ∀ rs cnt op, op ∈ (addsOf rs cnt).1 →
      ∃ r ∈ rs, opStart op = r.start ∧ opStop op = r.stop := by
  intro rs
  induction rs with
  | nil => intro cnt op h; exact absurd h (List.not_mem_nil op)
  | cons r rs ih =>
    intro cnt op h
    have hmem : op = POp.addMark r.start r.stop ⟨r.priority, r.priority, cnt, r.color⟩
        ∨ op ∈ (addsOf rs (cnt + 1)).1 := List.mem_cons.mp h
    cases hmem with
    | inl he =>
      exact ⟨r, List.mem_cons_self r rs, by rw [he]; exact ⟨rfl, rfl⟩⟩
    | inr hmem =>
      obtain ⟨x, hx, h1, h2⟩ := ih (cnt + 1) op hmem
      exact ⟨x, List.mem_cons_of_mem r hx, h1, h2⟩

theorem pScanDoc_append :
    ∀ A B i, pScanDoc i (A ++ B) = pScanDoc i A ++ pScanDoc (i + docLen A) B := by
  intro A
  induction A with
  | nil =>
    intro B i
    simp [pScanDoc, docLen]
  | cons n A ih =>
    intro B i
    show pScanNode i n.text ++ pScanDoc (i + n.text.length) (A ++ B) = _
    rw [ih B (i + n.text.length)]
    show _ = (pScanNode i n.text ++ pScanDoc (i + n.text.length) A)
      ++ pScanDoc (i + docLen (n :: A)) B
    rw [List.append_assoc]
    have hlen : docLen (n :: A) = n.text.length + docLen A := by simp [docLen]
    rw [hlen, show i + (n.text.length + docLen A) = i + n.text.length + docLen A by omega]

theorem scan_fragsDoc :
    ∀ doc i cnt, pScanDoc i (fragsDoc i doc cnt) = pScanDoc i doc := by
  intro doc
  induction doc with
  | nil => intro i cnt; rfl
  | cons n doc ih =>
    intro i cnt
    show pScanDoc i (fragmentNode i n.text (pScanNode i n.text) cnt
        ++ fragsDoc (i + n.text.length) doc (cnt + (pScanNode i n.text).length)) = _
    rw [pScanDoc_append]
    have hb := pScanDoc_bounds (n :: doc) i
    have hbn : ∀ r ∈ pScanNode i n.text, i ≤ r.start ∧ r.start < r.stop ∧
        r.stop ≤ i + n.text.length := by
      intro r hr
      exact pScanJS_bounds n.text.length false i n.text r hr
    have hps : (pScanNode i n.text).Pairwise (fun a b => a.stop ≤ b.start) :=
      pScanJS_sorted n.text.length false i n.text
    have hfrag : pScanDoc i (fragmentNode i n.text (pScanNode i n.text) cnt)
        = pScanNode i n.text := by
      have h := scan_fragmentNode n.text i (pScanNode i n.text) 0 cnt
        (by rw [pScanNode_eq_candList]) (Nat.zero_le _) (Or.inl rfl)
      simpa using h
    rw [hfrag]
    have hlen : docLen (fragmentNode i n.text (pScanNode i n.text) cnt) = n.text.length :=
      fragmentNode_docLen (pScanNode i n.text) i n.text cnt hbn hps
    rw [hlen, ih (i + n.text.length) (cnt + (pScanNode i n.text).length)]
    rfl

theorem applyAdds_node :
    ∀ rs i t cnt, t ≠ [] →
      (∀ r ∈ rs, i ≤ r.start ∧ r.start < r.stop ∧ r.stop ≤ i + t.length) →
      rs.Pairwise (fun a b => a.stop ≤ b.start) →
      applyOpsAt i [⟨t, none⟩] (addsOf rs cnt).1 = fragmentNode i t rs cnt := by
  intro rs
  induction rs with
  | nil =>
    intro i t cnt ht _ _
    have hfe : fragmentNode i t [] cnt = [(⟨t, none⟩ : PNode)] := by
      show (if t.isEmpty then [] else [(⟨t, none⟩ : PNode)]) = _
      rw [if_neg (by simpa [List.isEmpty_iff] using ht)]
    rw [hfe]
    rfl
  | cons r rs ih =>
    intro i t cnt ht hb hp
    have hr := hb r (List.mem_cons_self r rs)
    have hafter : ∀ x ∈ rs, r.stop ≤ x.start := fun x hx => (List.pairwise_cons.mp hp).1 x hx
    show applyOpsAt i (applyOp i (POp.addMark r.start r.stop
        ⟨r.priority, r.priority, cnt, r.color⟩) [⟨t, none⟩]) (addsOf rs (cnt + 1)).1 = _
    have hsplit : applyOp i (POp.addMark r.start r.stop
        ⟨r.priority, r.priority, cnt, r.color⟩) [⟨t, none⟩]
        = splitAdd r.start r.stop ⟨r.priority, r.priority, cnt, r.color⟩ i ⟨t, none⟩ := by
      show splitAdd _ _ _ _ _ ++ applyOp (i + t.length) _ [] = _
      rw [show applyOp (i + t.length) (POp.addMark r.start r.stop
        ⟨r.priority, r.priority, cnt, r.color⟩) [] = [] from rfl, List.append_nil]
    rw [hsplit]
    have hlo : max r.start i = r.start := max_eq_left hr.1
    have hhi : min r.stop (i + t.length) = r.stop := min_eq_left hr.2.2
    have hsa : splitAdd r.start r.stop ⟨r.priority, r.priority, cnt, r.color⟩ i ⟨t, none⟩
        = (if r.start = i then [] else [⟨t.take (r.start - i), none⟩])
          ++ [(⟨(t.drop (r.start - i)).take (r.stop - r.start),
              some ⟨r.priority, r.priority, cnt, r.color⟩⟩ : PNode)]
          ++ (if r.stop = i + t.length then [] else [⟨t.drop (r.stop - i), none⟩]) := by
      simp only [splitAdd]
      rw [hlo, hhi, if_pos hr.2.1]
    rw [hsa]
    have hrestops : ∀ op ∈ (addsOf rs (cnt + 1)).1, r.stop ≤ opStart op := by
      intro op hop
      obtain ⟨x, hx, h1, _⟩ := addsOf_mem rs (cnt + 1) op hop
      rw [h1]
      exact hafter x hx
    have hGT : docLen ((if r.start = i then [] else [(⟨t.take (r.start - i), none⟩ : PNode)])
        ++ [(⟨(t.drop (r.start - i)).take (r.stop - r.start),
            some ⟨r.priority, r.priority, cnt, r.color⟩⟩ : PNode)]) = r.stop - i := by
      by_cases hz : r.start = i
      · rw [if_pos hz]
        simp [docLen]
        omega
      · rw [if_neg hz]
        simp [docLen]
        omega
    rw [applyOpsAt_append_high (addsOf rs (cnt + 1)).1 _ _ i
      (fun op hop => by rw [hGT]; have := hrestops op hop; omega)]
    rw [hGT, show i + (r.stop - i) = r.stop by omega]
    by_cases hend : r.stop = i + t.length
    · have hrs : rs = [] := by
        cases rs with
        | nil => rfl
        | cons x xs =>
          have hx := hb x (List.mem_cons_of_mem r (List.mem_cons_self x xs))
          have hax := hafter x (List.mem_cons_self x xs)
          omega
      subst hrs
      have hdropnil : t.drop (r.stop - i) = [] := by
        rw [hend]
        simp
      rw [if_pos hend]
      show _ ++ applyOpsAt r.stop [] [] = _
      show _ ++ ([] : List PNode) =
        (if r.start = i then [] else [(⟨t.take (r.start - i), none⟩ : PNode)])
          ++ (⟨(t.drop (r.start - i)).take (r.stop - r.start),
              some ⟨r.priority, r.priority, cnt, r.color⟩⟩ : PNode)
          :: fragmentNode r.stop (t.drop (r.stop - i)) [] (cnt + 1)
      rw [hdropnil]
      show _ = _ ++ _ :: (if ([] : List Char).isEmpty then [] else [⟨[], none⟩])
      simp
    · rw [if_neg hend]
      have ht' : t.drop (r.stop - i) ≠ [] := by
        intro hnil
        have hlen := congrArg List.length hnil
        simp only [List.length_drop, List.length_nil] at hlen
        omega
      have hb' : ∀ x ∈ rs, r.stop ≤ x.start ∧ x.start < x.stop ∧
          x.stop ≤ r.stop + (t.drop (r.stop - i)).length := by
        intro x hx
        have hx1 := hb x (List.mem_cons_of_mem r hx)
        have hx2 := hafter x hx
        rw [List.length_drop]
        omega
      rw [ih r.stop (t.drop (r.stop - i)) (cnt + 1) ht' hb' (List.pairwise_cons.mp hp).2]
      rw [List.append_assoc]
      rfl

theorem applyAdds_doc :
    ∀ doc i cnt, (∀ n ∈ doc, n.pmark = none) → (∀ n ∈ doc, n.text ≠ []) →
      applyOpsAt i doc (addsOf (pScanDoc i doc) cnt).1 = fragsDoc i doc cnt := by
  intro doc
  induction doc with
  | nil => intro i cnt _ _; rfl
  | cons n doc ih =>
    intro i cnt hfree hne
    have hsplit : pScanDoc i (n :: doc)
        = pScanNode i n.text ++ pScanDoc (i + n.text.length) doc := rfl
    rw [hsplit, addsOf_append, applyOpsAt_append_ops]
    have hbn : ∀ r ∈ pScanNode i n.text, i ≤ r.start ∧ r.start < r.stop ∧
        r.stop ≤ i + n.text.length := by
      intro r hr
      exact pScanJS_bounds n.text.length false i n.text r hr
    have hps : (pScanNode i n.text).Pairwise (fun a b => a.stop ≤ b.start) :=
      pScanJS_sorted n.text.length false i n.text
    have hnp : n.pmark = none := hfree n (List.mem_cons_self n doc)
    have hstepA : applyOpsAt i (n :: doc) (addsOf (pScanNode i n.text) cnt).1
        = fragmentNode i n.text (pScanNode i n.text) cnt ++ doc := by
      have hcons : (n :: doc) = [n] ++ doc := rfl
      rw [hcons, applyOpsAt_append_low _ [n] doc i (fun op hop => by
        obtain ⟨x, hx, _, h2⟩ := addsOf_mem (pScanNode i n.text) cnt op hop
        have hxb := hbn x hx
        rw [h2]
        simp only [docLen, List.map_cons, List.map_nil, List.sum_cons, List.sum_nil]
        omega)]
      have hn : [n] = [(⟨n.text, none⟩ : PNode)] := by
        cases n with
        | mk t p =>
          have hp : p = none := hnp
          rw [hp]
      rw [hn, applyAdds_node (pScanNode i n.text) i n.text cnt
        (hne n (List.mem_cons_self n doc)) hbn hps]
    rw [hstepA]
    have hlenF : docLen (fragmentNode i n.text (pScanNode i n.text) cnt) = n.text.length :=
      fragmentNode_docLen (pScanNode i n.text) i n.text cnt hbn hps
    rw [applyOpsAt_append_high _ _ _ i (fun op hop => by
      obtain ⟨x, hx, h1, _⟩ := addsOf_mem _ _ op hop
      have hxb := (pScanDoc_bounds doc (i + n.text.length) x hx).1
      rw [h1, hlenF]
      omega)]
    rw [hlenF, ih (i + n.text.length) (cnt + (pScanNode i n.text).length)
      (fun x hx => hfree x (List.mem_cons_of_mem n hx))
      (fun x hx => hne x (List.mem_cons_of_mem n hx))]
    rfl

theorem marksBetween_markFree :
    ∀ doc s e i, (∀ n ∈ doc, n.pmark = none) → marksBetween s e i doc = [] := by
  intro doc
  induction doc with
  | nil => intro s e i _; rfl
  | cons n doc ih =>
    intro s e i hfree
    show (if i < e && s < i + n.text.length then n.pmark.toList else [])
      ++ marksBetween s e (i + n.text.length) doc = []
    rw [hfree n (List.mem_cons_self n doc),
      ih s e (i + n.text.length) (fun x hx => hfree x (List.mem_cons_of_mem n hx))]
    simp

theorem secondPass_markFree :
    ∀ doc rs i, (∀ n ∈ doc, n.pmark = none) → secondPass rs i doc = [] := by
  intro doc
  induction doc with
  | nil => intro rs i _; rfl
  | cons n doc ih =>
    intro rs i hfree
    show (match n.pmark with
      | none => []
      | some m =>
        match rs.find? (fun r => r.start ≤ i && i + n.text.length ≤ r.stop) with
        | none => [POp.removeMark i (i + n.text.length)]
        | some r =>
          if r.priority ≠ m.priority || r.color ≠ m.color then
            [POp.removeMark i (i + n.text.length)]
          else [])
      ++ secondPass rs (i + n.text.length) doc = []
    rw [hfree n (List.mem_cons_self n doc),
      ih rs (i + n.text.length) (fun x hx => hfree x (List.mem_cons_of_mem n hx))]
    rfl

theorem thirdPass_markFree :
    ∀ rs doc cnt, (∀ n ∈ doc, n.pmark = none) → thirdPass doc rs cnt = addsOf rs cnt := by
  intro rs
  induction rs with
  | nil => intro doc cnt _; rfl
  | cons r rs ih =>
    intro doc cnt hfree
    have hmb : marksBetween r.start r.stop 0 doc = [] :=
      marksBetween_markFree doc r.start r.stop 0 hfree
    show (if (thirdPassStep r (marksBetween r.start r.stop 0 doc)).1 then thirdPass doc rs cnt
      else
        match (thirdPassStep r (marksBetween r.start r.stop 0 doc)).2 with
        | some u =>
          (POp.addMark r.start r.stop ⟨r.priority, r.priority, u, r.color⟩
              :: (thirdPass doc rs cnt).1,
            (thirdPass doc rs cnt).2)
        | none =>
          (POp.addMark r.start r.stop ⟨r.priority, r.priority, cnt, r.color⟩
              :: (thirdPass doc rs (cnt + 1)).1,
            (thirdPass doc rs (cnt + 1)).2)) = _
    rw [hmb]
    show (if false = true then _ else _) = _
    rw [if_neg (by simp)]
    show (POp.addMark r.start r.stop ⟨r.priority, r.priority, cnt, r.color⟩
        :: (thirdPass doc rs (cnt + 1)).1,
      (thirdPass doc rs (cnt + 1)).2) = _
    rw [ih doc (cnt + 1) hfree]
    rfl

theorem find_container :
    ∀ RS : List PRange, RS.Pairwise (fun a b => a.stop ≤ b.start) →
      ∀ r ∈ RS, r.start < r.stop →
        RS.find? (fun x => x.start ≤ r.start && r.stop ≤ x.stop) = some r := by
  intro RS
  induction RS with
  | nil => intro _ r hr; exact absurd hr (List.not_mem_nil r)
  | cons y RS ih =>
    intro hp r hr hlt
    rcases List.mem_cons.mp hr with he | hm
    · subst he
      exact List.find?_cons_of_pos RS (by simp)
    · have hya : y.stop ≤ r.start := (List.pairwise_cons.mp hp).1 r hm
      rw [List.find?_cons_of_neg RS (by simp; omega)]
      exact ih (List.pairwise_cons.mp hp).2 r hm hlt

theorem marksBetween_append :
    ∀ A B s e i, marksBetween s e i (A ++ B)
      = marksBetween s e i A ++ marksBetween s e (i + docLen A) B := by
  intro A
  induction A with
  | nil => intro B s e i; simp [marksBetween, docLen]
  | cons n A ih =>
    intro B s e i
    show (if i < e && s < i + n.text.length then n.pmark.toList else [])
        ++ marksBetween s e (i + n.text.length) (A ++ B) = _
    rw [ih B s e (i + n.text.length)]
    show _ = ((if i < e && s < i + n.text.length then n.pmark.toList else [])
        ++ marksBetween s e (i + n.text.length) A)
      ++ marksBetween s e (i + docLen (n :: A)) B
    rw [List.append_assoc]
    have hlen : docLen (n :: A) = n.text.length + docLen A := by simp [docLen]
    rw [hlen, show i + (n.text.length + docLen A) = i + n.text.length + docLen A by omega]

theorem secondPass_append :
    ∀ A B RS i, secondPass RS i (A ++ B)
      = secondPass RS i A ++ secondPass RS (i + docLen A) B := by
  intro A
  induction A with
  | nil => intro B RS i; simp [secondPass, docLen]
  | cons n A ih =>
    intro B RS i
    show (match n.pmark with
      | none => []
      | some m =>
        match RS.find? (fun r => r.start ≤ i && i + n.text.length ≤ r.stop) with
        | none => [POp.removeMark i (i + n.text.length)]
        | some r =>
          if r.priority ≠ m.priority || r.color ≠ m.color then
            [POp.removeMark i (i + n.text.length)]
          else [])
      ++ secondPass RS (i + n.text.length) (A ++ B) = _
    rw [ih B RS (i + n.text.length)]
    show _ = ((match n.pmark with
      | none => []
      | some m =>
        match RS.find? (fun r => r.start ≤ i && i + n.text.length ≤ r.stop) with
        | none => [POp.removeMark i (i + n.text.length)]
        | some r =>
          if r.priority ≠ m.priority || r.color ≠ m.color then
            [POp.removeMark i (i + n.text.length)]
          else [])
      ++ secondPass RS (i + n.text.length) A)
      ++ secondPass RS (i + docLen (n :: A)) B
    rw [List.append_assoc]
    have hlen : docLen (n :: A) = n.text.length + docLen A := by simp [docLen]
    rw [hlen, show i + (n.text.length + docLen A) = i + n.text.length + docLen A by omega]

theorem secondPass_cons_some (RS : List PRange) (ttl : List Char) (m : PMark)
    (doc : List PNode) (i : Nat) :
    secondPass RS i ((⟨ttl, some m⟩ : PNode) :: doc)
      = (match RS.find? (fun r => r.start ≤ i && i + ttl.length ≤ r.stop) with
         | none => [POp.removeMark i (i + ttl.length)]
         | some r =>
           if r.priority ≠ m.priority || r.color ≠ m.color then
             [POp.removeMark i (i + ttl.length)]
           else [])
        ++ secondPass RS (i + ttl.length) doc := rfl

theorem secondPass_cons_none (RS : List PRange) (ttl : List Char)
    (doc : List PNode) (i : Nat) :
    secondPass RS i ((⟨ttl, none⟩ : PNode) :: doc) = secondPass RS (i + ttl.length) doc := by
  show [] ++ _ = _
  rw [List.nil_append]

theorem secondPass_fragmentNode (RS : List PRange)
    (hRS : RS.Pairwise (fun a b => a.stop ≤ b.start)) :
    ∀ rs i t cnt, (∀ x ∈ rs, i ≤ x.start ∧ x.start < x.stop ∧ x.stop ≤ i + t.length) →
      rs.Pairwise (fun a b => a.stop ≤ b.start) →
      (∀ x ∈ rs, x ∈ RS) →
      secondPass RS i (fragmentNode i t rs cnt) = [] := by
  intro rs
  induction rs with
  | nil =>
    intro i t cnt _ _ _
    show secondPass RS i (if t.isEmpty then [] else [⟨t, none⟩]) = []
    by_cases h : t.isEmpty
    · rw [if_pos h]
      rfl
    · rw [if_neg h]
      rfl
  | cons y rs ih =>
    intro i t cnt hb hp hsub
    have hy := hb y (List.mem_cons_self y rs)
    have hyRS := hsub y (List.mem_cons_self y rs)
    have hafter : ∀ x ∈ rs, y.stop ≤ x.start := fun x hx => (List.pairwise_cons.mp hp).1 x hx
    have hTlen : ((t.drop (y.start - i)).take (y.stop - y.start)).length = y.stop - y.start := by
      simp only [List.length_take, List.length_drop]
      omega
    have hfind : RS.find? (fun x => x.start ≤ y.start && y.stop ≤ x.stop) = some y :=
      find_container RS hRS y hyRS hy.2.1
    have hrec : secondPass RS y.stop
        (fragmentNode y.stop (t.drop (y.stop - i)) rs (cnt + 1)) = [] := by
      refine ih y.stop (t.drop (y.stop - i)) (cnt + 1) (fun x hx => ?_)
        (List.pairwise_cons.mp hp).2 (fun x hx => hsub x (List.mem_cons_of_mem y hx))
      have hx1 := hb x (List.mem_cons_of_mem y hx)
      have hx2 := hafter x hx
      rw [List.length_drop]
      omega
    have hT : secondPass RS y.start
        ((⟨(t.drop (y.start - i)).take (y.stop - y.start),
            some ⟨y.priority, y.priority, cnt, y.color⟩⟩ : PNode)
          :: fragmentNode y.stop (t.drop (y.stop - i)) rs (cnt + 1)) = [] := by
      rw [secondPass_cons_some]
      simp only [hTlen]
      simp only [show y.start + (y.stop - y.start) = y.stop from by omega]
      rw [hfind]
      show (if (decide ¬y.priority = y.priority || decide ¬y.color = y.color) = true
        then _ else []) ++ _ = []
      rw [if_neg (by simp)]
      rw [List.nil_append]
      exact hrec
    by_cases hz : y.start = i
    · subst hz
      have hG : fragmentNode y.start t (y :: rs) cnt
          = (⟨(t.drop (y.start - y.start)).take (y.stop - y.start),
              some ⟨y.priority, y.priority, cnt, y.color⟩⟩ : PNode)
            :: fragmentNode y.stop (t.drop (y.stop - y.start)) rs (cnt + 1) := by
        show (if y.start = y.start then [] else _) ++ _ = _
        rw [if_pos rfl, List.nil_append]
      rw [hG]
      exact hT
    · have hG : fragmentNode i t (y :: rs) cnt
          = (⟨t.take (y.start - i), none⟩ : PNode)
            :: (⟨(t.drop (y.start - i)).take (y.stop - y.start),
                some ⟨y.priority, y.priority, cnt, y.color⟩⟩ : PNode)
            :: fragmentNode y.stop (t.drop (y.stop - i)) rs (cnt + 1) := by
        show (if y.start = i then [] else [(⟨t.take (y.start - i), none⟩ : PNode)]) ++ _ = _
        rw [if_neg hz]
        rfl
      rw [hG, secondPass_cons_none]
      simp only [List.length_take]
      simp only [show i + min (y.start - i) t.length = y.start from by omega]
      exact hT

theorem secondPass_fragsDoc (RS : List PRange)
    (hRS : RS.Pairwise (fun a b => a.stop ≤ b.start)) :
    ∀ doc i cnt, (∀ x ∈ pScanDoc i doc, x ∈ RS) →
      secondPass RS i (fragsDoc i doc cnt) = [] := by
  intro doc
  induction doc with
  | nil => intro i cnt _; rfl
  | cons n doc ih =>
    intro i cnt hsub
    have hbn : ∀ r ∈ pScanNode i n.text, i ≤ r.start ∧ r.start < r.stop ∧
        r.stop ≤ i + n.text.length := by
      intro r hr
      exact pScanJS_bounds n.text.length false i n.text r hr
    have hps : (pScanNode i n.text).Pairwise (fun a b => a.stop ≤ b.start) :=
      pScanJS_sorted n.text.length false i n.text
    show secondPass RS i (fragmentNode i n.text (pScanNode i n.text) cnt
        ++ fragsDoc (i + n.text.length) doc (cnt + (pScanNode i n.text).length)) = []
    rw [secondPass_append]
    rw [secondPass_fragmentNode RS hRS (pScanNode i n.text) i n.text cnt hbn hps
      (fun x hx => hsub x (by
        show x ∈ pScanNode i n.text ++ pScanDoc (i + n.text.length) doc
        exact List.mem_append.mpr (Or.inl hx)))]
    rw [fragmentNode_docLen (pScanNode i n.text) i n.text cnt hbn hps]
    rw [ih (i + n.text.length) (cnt + (pScanNode i n.text).length)
      (fun x hx => hsub x (by
        show x ∈ pScanNode i n.text ++ pScanDoc (i + n.text.length) doc
        exact List.mem_append.mpr (Or.inr hx)))]
    rfl

theorem marksBetween_cons (s e i : Nat) (n : PNode) (doc : List PNode) :
    marksBetween s e i (n :: doc)
      = (if i < e && s < i + n.text.length then n.pmark.toList else [])
        ++ marksBetween s e (i + n.text.length) doc := rfl

theorem marksBetween_fragmentNode :
    ∀ rs i t cnt r, r ∈ rs →
      (∀ x ∈ rs, i ≤ x.start ∧ x.start < x.stop ∧ x.stop ≤ i + t.length) →
      rs.Pairwise (fun a b => a.stop ≤ b.start) →
      ∃ m ∈ marksBetween r.start r.stop i (fragmentNode i t rs cnt),
        m.priority = r.priority ∧ m.color = r.color := by
  intro rs
  induction rs with
  | nil => intro i t cnt r hr; exact absurd hr (List.not_mem_nil r)
  | cons y rs ih =>
    intro i t cnt r hr hb hp
    have hy := hb y (List.mem_cons_self y rs)
    have hafter : ∀ x ∈ rs, y.stop ≤ x.start := fun x hx => (List.pairwise_cons.mp hp).1 x hx
    have hTlen : ((t.drop (y.start - i)).take (y.stop - y.start)).length = y.stop - y.start := by
      simp only [List.length_take, List.length_drop]
      omega
    rcases List.mem_cons.mp hr with he | hm
    · subst he
      refine ⟨⟨r.priority, r.priority, cnt, r.color⟩, ?_, rfl, rfl⟩
      by_cases hz : r.start = i
      · subst hz
        have hG : fragmentNode r.start t (r :: rs) cnt
            = (⟨(t.drop (r.start - r.start)).take (r.stop - r.start),
                some ⟨r.priority, r.priority, cnt, r.color⟩⟩ : PNode)
              :: fragmentNode r.stop (t.drop (r.stop - r.start)) rs (cnt + 1) := by
          show (if r.start = r.start then [] else _) ++ _ = _
          rw [if_pos rfl, List.nil_append]
        rw [hG, marksBetween_cons]
        refine List.mem_append.mpr (Or.inl ?_)
        rw [if_pos (by
          simp only [hTlen, Bool.and_eq_true, decide_eq_true_eq]
          omega)]
        simp
      · have hG : fragmentNode i t (r :: rs) cnt
            = (⟨t.take (r.start - i), none⟩ : PNode)
              :: (⟨(t.drop (r.start - i)).take (r.stop - r.start),
                  some ⟨r.priority, r.priority, cnt, r.color⟩⟩ : PNode)
              :: fragmentNode r.stop (t.drop (r.stop - i)) rs (cnt + 1) := by
          show (if r.start = i then [] else [(⟨t.take (r.start - i), none⟩ : PNode)]) ++ _ = _
          rw [if_neg hz]
          rfl
        rw [hG, marksBetween_cons, marksBetween_cons]
        refine List.mem_append.mpr (Or.inr (List.mem_append.mpr (Or.inl ?_)))
        rw [if_pos (by
          simp only [hTlen, List.length_take, List.length_drop, Bool.and_eq_true,
            decide_eq_true_eq]
          omega)]
        simp
    · have hx1 := hb r (List.mem_cons_of_mem y hm)
      have hx2 := hafter r hm
      have hrec := ih y.stop (t.drop (y.stop - i)) (cnt + 1) r hm (fun x hx => by
          have h1 := hb x (List.mem_cons_of_mem y hx)
          have h2 := hafter x hx
          rw [List.length_drop]
          omega)
        (List.pairwise_cons.mp hp).2
      obtain ⟨m, hmem, hpm⟩ := hrec
      refine ⟨m, ?_, hpm⟩
      by_cases hz : y.start = i
      · subst hz
        have hG : fragmentNode y.start t (y :: rs) cnt
            = (⟨(t.drop (y.start - y.start)).take (y.stop - y.start),
                some ⟨y.priority, y.priority, cnt, y.color⟩⟩ : PNode)
              :: fragmentNode y.stop (t.drop (y.stop - y.start)) rs (cnt + 1) := by
          show (if y.start = y.start then [] else _) ++ _ = _
          rw [if_pos rfl, List.nil_append]
        rw [hG, marksBetween_cons]
        refine List.mem_append.mpr (Or.inr ?_)
        rw [hTlen, show y.start + (y.stop - y.start) = y.stop from by omega]
        exact hmem
      · have hG : fragmentNode i t (y :: rs) cnt
            = (⟨t.take (y.start - i), none⟩ : PNode)
              :: (⟨(t.drop (y.start - i)).take (y.stop - y.start),
                  some ⟨y.priority, y.priority, cnt, y.color⟩⟩ : PNode)
              :: fragmentNode y.stop (t.drop (y.stop - i)) rs (cnt + 1) := by
          show (if y.start = i then [] else [(⟨t.take (y.start - i), none⟩ : PNode)]) ++ _ = _
          rw [if_neg hz]
          rfl
        rw [hG, marksBetween_cons, marksBetween_cons]
        refine List.mem_append.mpr (Or.inr (List.mem_append.mpr (Or.inr ?_)))
        rw [List.length_take, show i + min (y.start - i) t.length = y.start from by omega]
        rw [hTlen, show y.start + (y.stop - y.start) = y.stop from by omega]
        exact hmem

theorem marksBetween_fragsDoc :
    ∀ doc i cnt r, r ∈ pScanDoc i doc →
      ∃ m ∈ marksBetween r.start r.stop i (fragsDoc i doc cnt),
        m.priority = r.priority ∧ m.color = r.color := by
  intro doc
  induction doc with
  | nil => intro i cnt r hr; exact absurd hr (by simp [pScanDoc])
  | cons n doc ih =>
    intro i cnt r hr
    have hbn : ∀ x ∈ pScanNode i n.text, i ≤ x.start ∧ x.start < x.stop ∧
        x.stop ≤ i + n.text.length := by
      intro x hx
      exact pScanJS_bounds n.text.length false i n.text x hx
    have hps : (pScanNode i n.text).Pairwise (fun a b => a.stop ≤ b.start) :=
      pScanJS_sorted n.text.length false i n.text
    have hlenF : docLen (fragmentNode i n.text (pScanNode i n.text) cnt) = n.text.length :=
      fragmentNode_docLen (pScanNode i n.text) i n.text cnt hbn hps
    have hfd : fragsDoc i (n :: doc) cnt
        = fragmentNode i n.text (pScanNode i n.text) cnt
          ++ fragsDoc (i + n.text.length) doc (cnt + (pScanNode i n.text).length) := rfl
    have hsplit : r ∈ pScanNode i n.text ++ pScanDoc (i + n.text.length) doc := hr
    rcases List.mem_append.mp hsplit with hl | hrr
    · obtain ⟨m, hmem, hpm⟩ :=
        marksBetween_fragmentNode (pScanNode i n.text) i n.text cnt r hl hbn hps
      refine ⟨m, ?_, hpm⟩
      rw [hfd, marksBetween_append]
      exact List.mem_append.mpr (Or.inl hmem)
    · obtain ⟨m, hmem, hpm⟩ :=
        ih (i + n.text.length) (cnt + (pScanNode i n.text).length) r hrr
      refine ⟨m, ?_, hpm⟩
      rw [hfd, marksBetween_append, hlenF]
      exact List.mem_append.mpr (Or.inr hmem)

theorem thirdPassStep_foldl_true (r : PRange) :
    ∀ (ms : List PMark) (acc : Bool × Option Nat), acc.1 = true →
      (ms.foldl (fun acc m =>
        if m.priority = r.priority && m.color = r.color then (true, acc.2)
        else (acc.1, some m.uid)) acc).1 = true := by
  intro ms
  induction ms with
  | nil => intro acc h; exact h
  | cons m ms ih =>
    intro acc h
    show (ms.foldl _ (if m.priority = r.priority && m.color = r.color
      then (true, acc.2) else (acc.1, some m.uid))).1 = true
    by_cases hc : (m.priority = r.priority && m.color = r.color) = true
    · rw [if_pos hc]
      exact ih (true, acc.2) rfl
    · rw [if_neg hc]
      exact ih (acc.1, some m.uid) h

theorem thirdPassStep_foldl_mem (r : PRange) :
    ∀ (ms : List PMark) (acc : Bool × Option Nat),
      (∃ m ∈ ms, m.priority = r.priority ∧ m.color = r.color) →
      (ms.foldl (fun acc m =>
        if m.priority = r.priority && m.color = r.color then (true, acc.2)
        else (acc.1, some m.uid)) acc).1 = true := by
  intro ms
  induction ms with
  | nil =>
    intro acc h
    obtain ⟨m, hm, _⟩ := h
    exact absurd hm (List.not_mem_nil m)
  | cons m ms ih =>
    intro acc h
    show (ms.foldl _ (if m.priority = r.priority && m.color = r.color
      then (true, acc.2) else (acc.1, some m.uid))).1 = true
    by_cases hc : (m.priority = r.priority && m.color = r.color) = true
    · rw [if_pos hc]
      exact thirdPassStep_foldl_true r ms (true, acc.2) rfl
    · rw [if_neg hc]
      obtain ⟨x, hx, hpx⟩ := h
      rcases List.mem_cons.mp hx with he | hm'
      · exfalso
        apply hc
        rw [he] at hpx
        simp [hpx.1, hpx.2]
      · exact ih (acc.1, some m.uid) ⟨x, hm', hpx⟩

theorem thirdPassStep_true_of_mem (r : PRange) (ms : List PMark)
    (h : ∃ m ∈ ms, m.priority = r.priority ∧ m.color = r.color) :
    (thirdPassStep r ms).1 = true :=
  thirdPassStep_foldl_mem r ms (false, none) h

theorem thirdPass_of_all_correct :
    ∀ rs doc cnt,
      (∀ r ∈ rs, (thirdPassStep r (marksBetween r.start r.stop 0 doc)).1 = true) →
      thirdPass doc rs cnt = ([], cnt) := by
  intro rs
  induction rs with
  | nil => intro doc cnt _; rfl
  | cons r rs ih =>
    intro doc cnt h
    show (if (thirdPassStep r (marksBetween r.start r.stop 0 doc)).1 then thirdPass doc rs cnt
      else _) = _
    rw [if_pos (h r (List.mem_cons_self r rs))]
    exact ih doc cnt (fun x hx => h x (List.mem_cons_of_mem r hx))

theorem priorityOnUpdate_fragsDoc (doc : List PNode) (cnt cnt₂ : Nat) :
    priorityOnUpdate (fragsDoc 0 doc cnt) cnt₂ = (none, cnt₂) := by
  have hscan : pScanDoc 0 (fragsDoc 0 doc cnt) = pScanDoc 0 doc := scan_fragsDoc doc 0 cnt
  have hsorted : (pScanDoc 0 doc).Pairwise (fun a b => a.stop ≤ b.start) :=
    pScanDoc_sorted doc 0
  have hsp : secondPass (pScanDoc 0 (fragsDoc 0 doc cnt)) 0 (fragsDoc 0 doc cnt) = [] := by
    rw [hscan]
    exact secondPass_fragsDoc (pScanDoc 0 doc) hsorted doc 0 cnt (fun x hx => hx)
  have htp : thirdPass (fragsDoc 0 doc cnt) (pScanDoc 0 (fragsDoc 0 doc cnt)) cnt₂
      = ([], cnt₂) := by
    rw [hscan]
    refine thirdPass_of_all_correct (pScanDoc 0 doc) (fragsDoc 0 doc cnt) cnt₂
      (fun r hr => ?_)
    exact thirdPassStep_true_of_mem r _ (marksBetween_fragsDoc doc 0 cnt r hr)
  unfold priorityOnUpdate
  rw [hsp, htp]
  simp

theorem run1_applies_adds (doc : List PNode) (cnt : Nat)
    (hfree : ∀ n ∈ doc, n.pmark = none) :
    applyTransaction doc (priorityOnUpdate doc cnt).1
      = applyOpsAt 0 doc (addsOf (pScanDoc 0 doc) cnt).1 := by
  have hsp : secondPass (pScanDoc 0 doc) 0 doc = [] :=
    secondPass_markFree doc (pScanDoc 0 doc) 0 hfree
  have htp : thirdPass doc (pScanDoc 0 doc) cnt = addsOf (pScanDoc 0 doc) cnt :=
    thirdPass_markFree (pScanDoc 0 doc) doc cnt hfree
  unfold priorityOnUpdate
  rw [hsp, htp, List.nil_append]
  by_cases he : (addsOf (pScanDoc 0 doc) cnt).1.isEmpty
  · rw [if_pos he]
    show doc = _
    rw [List.isEmpty_iff.mp he]
    rfl
  · rw [if_neg he]
    rfl

/-- Claim C3 counterexample: reconciliation is NOT idempotent from every
document state.  Starting from the single node "p1 p2" wholly covered by a
stale p1 mark, the first `onUpdate` run removes the stale mark over the
whole node and re-adds a mark only at the p2 span, reusing the stale uid;
it never re-adds the p1 span, because the stale mark made `hasCorrectMark`
true for that range while it still covered it.  The second run therefore
finds the p1 range bare and dispatches another transaction. -/
theorem C3_counterexample :
    ((priorityOnUpdate
        (applyTransaction
          [(⟨['p', '1', ' ', 'p', '2'],
              some ⟨['p', '1'], ['p', '1'], 5, P1_COLOR⟩⟩ : PNode)]
          (priorityOnUpdate
            [(⟨['p', '1', ' ', 'p', '2'],
                some ⟨['p', '1'], ['p', '1'], 5, P1_COLOR⟩⟩ : PNode)] 0).1)
        1).1).isSome = true := by
  decide

/-- Claim C3 (amended): starting from a document with no priority marks
(and nonempty text nodes, as in ProseMirror), running `onUpdate` twice
with no intervening edit yields zero operations on the second run: the
second invocation dispatches no transaction and draws no fresh uid. -/
theorem C3_amended_second_run_no_ops (doc : List PNode) (cnt cnt₂ : Nat)
    (hfree : ∀ n ∈ doc, n.pmark = none) (hne : ∀ n ∈ doc, n.text ≠ []) :
    priorityOnUpdate (applyTransaction doc (priorityOnUpdate doc cnt).1) cnt₂
      = (none, cnt₂) := by
  rw [run1_applies_adds doc cnt hfree]
  have happ : applyOpsAt 0 doc (addsOf (pScanDoc 0 doc) cnt).1 = fragsDoc 0 doc cnt :=
    applyAdds_doc doc 0 cnt hfree hne
  rw [happ]
  exact priorityOnUpdate_fragsDoc doc cnt cnt₂

/-- Witness for the amended C3 theorem at the concrete document "a p1". -/
theorem C3_amended_second_run_no_ops_witness :
    (∀ n ∈ [(⟨['a', ' ', 'p', '1'], none⟩ : PNode)], n.pmark = none) ∧
    (∀ n ∈ [(⟨['a', ' ', 'p', '1'], none⟩ : PNode)], n.text ≠ []) ∧
    priorityOnUpdate
      (applyTransaction [(⟨['a', ' ', 'p', '1'], none⟩ : PNode)]
        (priorityOnUpdate [(⟨['a', ' ', 'p', '1'], none⟩ : PNode)] 0).1) 7
      = (none, 7) :=
  ⟨by decide, by decide,
    C3_amended_second_run_no_ops [(⟨['a', ' ', 'p', '1'], none⟩ : PNode)] 0 7
      (by decide) (by decide)⟩
